import Mathlib

/-!
Verification of the HumanJSON formatter (src/index.js, exported class
HumanJSON together with PriorityKeySorter).

The JavaScript source is shallowly embedded as follows.

JavaScript values reaching the formatter are modelled by the inductive type
JsVal: null, undefined, functions (both of which JSON.stringify maps to
undefined), booleans, numbers, strings, arrays and plain objects (association
lists in insertion order; JavaScript object keys are unique, and the exotic
integer-like-key ordering of JS objects is outside the modelled domain).
The toJSON / Map / Set / ArrayBuffer upgrade steps of the source are identity
on every constructor of this model, so they do not appear.

Numbers are modelled as integers plus the three non-finite values (NaN and
the two infinities); JSON.stringify prints an integral double as its plain
decimal digits, which natStr and intStr reimplement (natStr carries fuel 20,
enough for every integer below 10^20; JavaScript switches to exponential
notation near that magnitude anyway).

String.prototype.localeCompare is modelled as ordinal (code-unit)
lexicographic comparison, matching the spec reading of lexicographic
(locale-aware ordinal) string comparison.  String.prototype.toLowerCase and
trim are modelled on ASCII.  The regex-based padding pass #pad is modelled as
the equivalent string-aware scanner padLoop; the two agree on every output of
JSON.stringify (the only strings the source feeds to #pad), where all string
literals are terminated.

The recursive #stringify carries a fuel argument (strfFuel) purely to make
the recursion structural; strf instantiates the fuel with sizeVal, which is
proven sufficient, so strf is total and computes exactly the source
recursion.
-/

namespace HumanJson

/-- Whitespace test used by the model of String.prototype.trim (ASCII part of
the JavaScript WhiteSpace / LineTerminator sets). -/
def jsWs (c : Char) : Bool :=
  c = ' ' || c = '\t' || c = '\n' || c = '\r' || c = '\x0b' || c = '\x0c'

/-- Model of String.prototype.trim on the character list: drop leading and
trailing whitespace. -/
def trimChars (l : List Char) : List Char :=
  ((l.dropWhile jsWs).reverse.dropWhile jsWs).reverse

/-- Model of String.prototype.trim. -/
def jsTrim (s : String) : String := ⟨trimChars s.data⟩

/-- Model of String.prototype.toLowerCase (ASCII range, which covers every
key and priority entry appearing in the claims). -/
def jsToLower (s : String) : String := ⟨s.data.map Char.toLower⟩

/-- Decimal digit character. -/
def digitChar (d : Nat) : Char := Char.ofNat (48 + d)

/-- Decimal digits of a positive natural number, most significant first.
The first argument is fuel bounding the number of digits. -/
def natCharsF : Nat → Nat → List Char
  | 0, _ => []
  | _, 0 => []
  | f+1, n+1 => natCharsF f ((n+1)/10) ++ [digitChar ((n+1) % 10)]

/-- Decimal representation of a natural number, as printed by
JSON.stringify for an integral double (fuel 20 covers all n < 10^20). -/
def natStr (n : Nat) : String := if n = 0 then "0" else ⟨natCharsF 20 n⟩

/-- Decimal representation of an integer, as printed by JSON.stringify. -/
def intStr (i : Int) : String :=
  if i < 0 then "-" ++ natStr i.natAbs else natStr i.natAbs

/-- Hexadecimal digit character (lowercase), as used in JSON \u escapes. -/
def hexDigit (d : Nat) : Char :=
  if d < 10 then digitChar d else Char.ofNat (87 + d)

/-- Escape of one character inside a JSON string literal, following
JSON.stringify: quote, backslash, the short control escapes, and \u00xx for
the remaining control characters. -/
def escapeChar (c : Char) : List Char :=
  if c = '"' then ['\\', '"']
  else if c = '\\' then ['\\', '\\']
  else if c = '\x08' then ['\\', 'b']
  else if c = '\t' then ['\\', 't']
  else if c = '\n' then ['\\', 'n']
  else if c = '\x0c' then ['\\', 'f']
  else if c = '\r' then ['\\', 'r']
  else if c.toNat < 32 then
    ['\\', 'u', '0', '0', hexDigit (c.toNat / 16), hexDigit (c.toNat % 16)]
  else [c]

/-- Model of JSON.stringify applied to a string: quoted and escaped. -/
def quoteJson (s : String) : String :=
  ⟨'"' :: (s.data.map escapeChar).flatten ++ ['"']⟩

/-- Model of Array.prototype.join: concatenate with a separator. -/
def joinSep (sep : String) : List String → String
  | [] => ""
  | [x] => x
  | x :: r => x ++ sep ++ joinSep sep r

/-- Split a character list at newline characters. -/
def splitNl : List Char → List (List Char)
  | [] => [[]]
  | c :: r =>
      if c = '\n' then [] :: splitNl r
      else
        match splitNl r with
        | [] => [[c]]
        | l :: ls => (c :: l) :: ls

/-- Lines of a string: the segments between newline characters. -/
def linesOf (s : String) : List String := (splitNl s.data).map (fun l => ⟨l⟩)

/-- Ordinal (code-unit) lexicographic order on character lists; the model of
the comparison performed by String.prototype.localeCompare. -/
def lexLt : List Char → List Char → Bool
  | [], [] => false
  | [], _ :: _ => true
  | _ :: _, [] => false
  | a :: as, b :: bs => if a < b then true else if b < a then false else lexLt as bs

/-- Model of a.localeCompare(b): negative, zero or positive. -/
def localeCompare (a b : String) : Int :=
  if lexLt a.data b.data then -1 else if lexLt b.data a.data then 1 else 0

/-- Non-finite or finite JavaScript number. JSON.stringify prints the
non-finite numbers as null. -/
inductive JsNum where
  | fin (i : Int)
  | nan
  | inf
  | negInf

/-- JavaScript values reaching the formatter.  undef is the undefined value;
func stands for any value JSON.stringify cannot represent (functions,
symbols); obj is a plain object as an insertion-ordered association list. -/
inductive JsVal where
  | null
  | undef
  | func
  | bool (b : Bool)
  | num (n : JsNum)
  | str (s : String)
  | arr (xs : List JsVal)
  | obj (kvs : List (String × JsVal))

mutual

/-- Structural size of a value, used as sufficient fuel for the recursive
formatter. -/
def sizeVal : JsVal → Nat
  | JsVal.arr xs => 1 + sizeArr xs
  | JsVal.obj kvs => 1 + sizeObj kvs
  | _ => 1

/-- Structural size of an array body. -/
def sizeArr : List JsVal → Nat
  | [] => 1
  | v :: r => 1 + sizeVal v + sizeArr r

/-- Structural size of an object body. -/
def sizeObj : List (String × JsVal) → Nat
  | [] => 1
  | e :: r => 1 + sizeVal e.2 + sizeObj r

end

/-- Rendering of a number by JSON.stringify. -/
def numStr : JsNum → String
  | JsNum.fin i => intStr i
  | _ => "null"

mutual

/-- Model of JSON.stringify (the trialString of the source): none exactly
when JSON.stringify returns undefined. -/
def jsonStringify : JsVal → Option String
  | JsVal.null => some "null"
  | JsVal.undef => none
  | JsVal.func => none
  | JsVal.bool b => some (if b then "true" else "false")
  | JsVal.num n => some (numStr n)
  | JsVal.str s => some (quoteJson s)
  | JsVal.arr xs => some ("[" ++ joinSep "," (jsonArrItems xs) ++ "]")
  | JsVal.obj kvs => some ("\x7b" ++ joinSep "," (jsonObjItems kvs) ++ "\x7d")

/-- Array elements as printed by JSON.stringify: undefined becomes null. -/
def jsonArrItems : List JsVal → List String
  | [] => []
  | v :: r => ((jsonStringify v).getD "null") :: jsonArrItems r

/-- Object entries as printed by JSON.stringify: entries whose value prints
as undefined are skipped. -/
def jsonObjItems : List (String × JsVal) → List String
  | [] => []
  | e :: r =>
      match jsonStringify e.2 with
      | some s => (quoteJson e.1 ++ ":" ++ s) :: jsonObjItems r
      | none => jsonObjItems r

end

/-- Spacing / fill mode enumeration of the source options (the values of the
spacing and fill options: none, array, object, all). -/
inductive Mode where
  | noneM
  | array
  | object
  | all
deriving DecidableEq

/-- Options object of the HumanJSON constructor (destructured defaults of
the source; absent fields are represented by their defaults here). -/
structure Options where
  sortKeys : Bool
  firstKeys : List String
  fill : Mode
  spacing : Mode
  appendNewLine : Bool
deriving DecidableEq

/-- Default options of the source constructor. -/
def defaultOptions : Options :=
  ⟨true, ["name", "id", "value", "version", "date", "errors"], Mode.array, Mode.object, true⟩

/-- Immutable configuration captured by the HumanJSON constructor.
maxLength is none when the source stores Infinity. -/
structure Config where
  indent : String
  spacing : Mode
  maxLength : Option Int
  fill : Mode
  firstKeys : List String
  sortKeys : Bool
  appendNewLine : Bool
deriving DecidableEq

/-- Model of the HumanJSON constructor.  A negative indent makes
" ".repeat(indentSpaces) throw a RangeError, modelled as the error case;
otherwise the fields are captured as in the source: maxLength becomes
Infinity when the indent is empty, and a zero (falsy) maxLineLength is
replaced by 120 by the expression maxLineLength || 120. -/
def mkConfig (indentSpaces : Int) (maxLineLength : Int) (o : Options) : Except String Config :=
  if indentSpaces < 0 then Except.error "Invalid count value"
  else
    let indent : String := ⟨List.replicate indentSpaces.toNat ' '⟩
    Except.ok
      ⟨indent, o.spacing,
        if indent = "" then none else some (if maxLineLength = 0 then 120 else maxLineLength),
        o.fill, o.firstKeys, o.sortKeys, o.appendNewLine⟩

/-- Rank prefix used by PriorityKeySorter: the javascript template
(three spaces followed by the index) sliced to its last three characters,
so indices below 100 are right-aligned in a 3-character field. -/
def pad3 (i : Nat) : String :=
  let s := "   " ++ natStr i
  ⟨s.data.drop (s.data.length - 3)⟩

/-- Lookup in the PriorityKeySorter map: the last occurrence of the key in
the configured list wins (Map.prototype.set overwrites), returning the
absolute index together with the stored entry. -/
def idxEntryAux (k : String) : Nat → List String → Option (Nat × String)
  | _, [] => none
  | i, p :: r =>
      match idxEntryAux k (i+1) r with
      | some e => some e
      | none => if p = k then some (i, p) else none

/-- Index and entry of a key in the configured priority list, if present. -/
def idxEntry (fk : List String) (k : String) : Option (Nat × String) :=
  idxEntryAux k 0 fk

/-- Value stored in the PriorityKeySorter map for a key: rank prefix
followed by the configured entry text. -/
def rankOf (fk : List String) (k : String) : Option String :=
  (idxEntry fk k).map (fun e => pad3 e.1 ++ e.2)

/-- Model of PriorityKeySorter.prototype.compare: look both keys up after
lowercasing, fall back to the original key, and compare the results. -/
def PriorityKeySorter.compare (fk : List String) (a b : String) : Int :=
  let aKey := (rankOf fk (jsToLower a)).getD a
  let bKey := (rankOf fk (jsToLower b)).getD b
  localeCompare aKey bKey

/-- Stable insertion of an object entry into a list sorted by
PriorityKeySorter.compare on the keys. -/
def insertEntry (fk : List String) (e : String × JsVal) :
    List (String × JsVal) → List (String × JsVal)
  | [] => [e]
  | f :: r =>
      if PriorityKeySorter.compare fk e.1 f.1 ≤ 0 then e :: f :: r
      else f :: insertEntry fk e r

/-- Model of keys.sort(comparator) on object entries: a stable sort with
respect to the comparator, matching the ECMAScript Array.prototype.sort
contract.  Sorting the entries is equivalent to the sorting of
Object.keys followed by the objRecord[key] lookups of the source, because
JavaScript object keys are unique. -/
def jsSortEntries (fk : List String) (kvs : List (String × JsVal)) : List (String × JsVal) :=
  kvs.foldr (insertEntry fk) []

/-- Model of #containsOnlySimpleValues: the value is null, undefined, or of
typeof string, number or boolean. -/
def isSimple : JsVal → Bool
  | JsVal.null => true
  | JsVal.undef => true
  | JsVal.bool _ => true
  | JsVal.num _ => true
  | JsVal.str _ => true
  | _ => false

/-- Model of #containsOnlySimpleValues over a list of values. -/
def containsOnlySimpleValues (values : List JsVal) : Bool :=
  values.all isSimple

/-- Comparison against the stored maximum line length; Infinity (none)
admits everything. -/
def ltMax (m? : Option Int) (x : Int) : Bool :=
  match m? with
  | none => true
  | some m => decide (x < m)

/-- Fits-in-available-width test of the fast path: length is at most
maxLength minus the used margin widths; Infinity admits everything. -/
def leAvail (m? : Option Int) (len : Nat) (used : Nat) : Bool :=
  match m? with
  | none => true
  | some m => decide ((len : Int) ≤ m - used)

/-- One step of the #fillWrap loop: merge the incoming item into the last
group when the lookahead width check passes, else start a new group. -/
def fillStep (m? : Option Int) (nextIndent : String) (acc : List String) (v : String) :
    List String :=
  match acc.getLast? with
  | some lastItem =>
      if ltMax m? (nextIndent.length + lastItem.length + v.length : Nat) then
        acc.dropLast ++ [lastItem ++ ", " ++ v]
      else acc ++ [v]
  | none => acc ++ [v]

/-- Model of #fillWrap: greedy left-to-right packing of rendered items into
line groups. -/
def fillWrap (m? : Option Int) (items : List String) (nextIndent : String) : List String :=
  items.foldl (fillStep m? nextIndent) []

/-- Is the bracket-padding set active for arrays under this spacing mode? -/
def padArray : Mode → Bool
  | Mode.array => true
  | Mode.all => true
  | _ => false

/-- Is the brace-padding set active for objects under this spacing mode? -/
def padObject : Mode → Bool
  | Mode.object => true
  | Mode.all => true
  | _ => false

/-- Replacement applied to a single structural token by #pad: commas and
colons always receive a trailing space; brackets and braces are padded only
when their token set is active under the spacing mode. -/
def padTok (sp : Mode) (c : Char) : List Char :=
  if c = ',' then [',', ' ']
  else if c = ':' then [':', ' ']
  else if c = '[' then (if padArray sp then ['[', ' '] else ['['])
  else if c = ']' then (if padArray sp then [' ', ']'] else [']'])
  else if c = Char.ofNat 123 then (if padObject sp then [Char.ofNat 123, ' '] else [Char.ofNat 123])
  else if c = Char.ofNat 125 then (if padObject sp then [' ', Char.ofNat 125] else [Char.ofNat 125])
  else [c]

/-- String-aware scanner equivalent to the #pad regex replacement.  State 0
is structural text, state 1 is inside a string literal, any other state is
the character following a backslash inside a literal.  On the outputs of
JSON.stringify every literal is terminated, where this scanner and the
regex agree. -/
def padLoop (sp : Mode) : Nat → List Char → List Char
  | _, [] => []
  | 0, c :: rest =>
      if c = '"' then c :: padLoop sp 1 rest else padTok sp c ++ padLoop sp 0 rest
  | 1, c :: rest =>
      if c = '"' then c :: padLoop sp 0 rest
      else if c = '\\' then c :: padLoop sp 2 rest
      else c :: padLoop sp 1 rest
  | _+2, c :: rest => c :: padLoop sp 1 rest

/-- Model of #pad. -/
def pad (sp : Mode) (s : String) : String := ⟨padLoop sp 0 s.data⟩

/-- Single-line rendering of a non-empty container: items joined by a comma
and space between the padded delimiters (the then-branch of the final join
of #stringify). -/
def singleLineForm (cfg : Config) (d0 d1 : String) (items : List String) : String :=
  pad cfg.spacing d0 ++ joinSep ", " items ++ pad cfg.spacing d1

/-- Fully expanded rendering of a non-empty container (the else-branch of
the final join of #stringify). -/
def expandedForm (cfg : Config) (d0 d1 leftMargin nextIndent : String)
    (items : List String) : String :=
  d0 ++ ("\n" ++ leftMargin) ++ (cfg.indent ++ joinSep (",\n" ++ nextIndent) items)
    ++ ("\n" ++ leftMargin) ++ d1

/-- Final assembly of a container from its rendered items: empty pair,
single line when the width check passes, fully expanded otherwise. -/
def assemble (cfg : Config) (d0 d1 leftMargin nextIndent : String)
    (items : List String) : String :=
  if items = [] then d0 ++ d1
  else if ltMax cfg.maxLength ((joinSep ", " items).length + leftMargin.length + 2 : Nat) then
    singleLineForm cfg d0 d1 items
  else expandedForm cfg d0 d1 leftMargin nextIndent items

/-- Model of typeof v === "object" for values other than null (null is
dispatched before this test in #stringify). -/
def isObjType : JsVal → Bool
  | JsVal.arr _ => true
  | JsVal.obj _ => true
  | _ => false

/-- Model of the recursive #stringify, with explicit fuel making the
recursion structural.  The fuel only limits the recursion depth; strf below
instantiates it with a proven-sufficient bound, so no reachable input ever
exhausts it. -/
def strfFuel (cfg : Config) : Nat → JsVal → String → Nat → Option String
  | 0, _, _, _ => none
  | n+1, v, leftMargin, rightMarginSize =>
    match jsonStringify v with
    | none => none
    | some trial =>
      match v with
      | JsVal.null => some trial
      | _ =>
        let fastTry : Option String :=
          if cfg.sortKeys = false ∨ isObjType v = false then
            if leAvail cfg.maxLength trial.length (leftMargin.length + rightMarginSize) then
              let pretty := jsTrim (pad cfg.spacing trial)
              if leAvail cfg.maxLength pretty.length (leftMargin.length + rightMarginSize) then
                some pretty
              else none
            else none
          else none
        match fastTry with
        | some s => some s
        | none =>
          if isObjType v = false then some trial
          else
            let nextIndent := leftMargin ++ cfg.indent
            match v with
            | JsVal.arr xs =>
                let items0 := xs.map (fun c => (strfFuel cfg n c nextIndent 2).getD "null")
                let items :=
                  if (padArray cfg.fill) ∧ containsOnlySimpleValues xs then
                    fillWrap cfg.maxLength items0 nextIndent
                  else items0
                some (assemble cfg "[" "]" leftMargin nextIndent items)
            | JsVal.obj kvs =>
                let entries := if cfg.sortKeys then jsSortEntries cfg.firstKeys kvs else kvs
                let items0 := entries.filterMap (fun e =>
                    (strfFuel cfg n e.2 nextIndent ((quoteJson e.1 ++ ": ").length + 1)).map
                      (fun s => quoteJson e.1 ++ ": " ++ s))
                let items :=
                  if (padObject cfg.fill) ∧ containsOnlySimpleValues (kvs.map Prod.snd) then
                    fillWrap cfg.maxLength items0 nextIndent
                  else items0
                some (assemble cfg "\x7b" "\x7d" leftMargin nextIndent items)
            | _ => some trial

/-- The recursive #stringify itself: the fuel is instantiated with the
structural size of the input, which bounds the recursion depth. -/
def strf (cfg : Config) (v : JsVal) (leftMargin : String) (rightMarginSize : Nat) :
    Option String :=
  strfFuel cfg (sizeVal v) v leftMargin rightMarginSize

/-- Model of the public stringify method: render at the empty left margin
with no right reserve, turn an undefined result into the empty string, and
append the optional trailing newline. -/
def stringify (cfg : Config) (v : JsVal) : String :=
  ((strf cfg v "" 0).getD "") ++ (if cfg.appendNewLine then "\n" else "")

/-- Rendering of one array element inside #stringify: recursive call with a
right reserve of 2, undefined replaced by null. -/
def arrayElemItem (cfg : Config) (nextIndent : String) (c : JsVal) : String :=
  (strf cfg c nextIndent 2).getD "null"

/-- Rendering of one object entry inside #stringify: quoted key, colon and
space, then the recursively rendered value; none when the value renders to
undefined, in which case the entry is dropped. -/
def objectEntryItem (cfg : Config) (nextIndent : String) (e : String × JsVal) : Option String :=
  (strf cfg e.2 nextIndent ((quoteJson e.1 ++ ": ").length + 1)).map
    (fun s => quoteJson e.1 ++ ": " ++ s)

/-- Item list an array contributes to the final container assembly,
including the optional fill-wrapping pass. -/
def arrayItems (cfg : Config) (xs : List JsVal) (nextIndent : String) : List String :=
  let its := xs.map (arrayElemItem cfg nextIndent)
  if padArray cfg.fill ∧ containsOnlySimpleValues xs then fillWrap cfg.maxLength its nextIndent
  else its

/-- Item list an object contributes to the final container assembly,
including key sorting and the optional fill-wrapping pass. -/
def objectItems (cfg : Config) (kvs : List (String × JsVal)) (nextIndent : String) :
    List String :=
  let entries := if cfg.sortKeys then jsSortEntries cfg.firstKeys kvs else kvs
  let its := entries.filterMap (objectEntryItem cfg nextIndent)
  if padObject cfg.fill ∧ containsOnlySimpleValues (kvs.map Prod.snd) then
    fillWrap cfg.maxLength its nextIndent
  else its

/-- Item list of a container value at a given left margin. -/
def containerItems (cfg : Config) (v : JsVal) (leftMargin : String) : List String :=
  match v with
  | JsVal.arr xs => arrayItems cfg xs (leftMargin ++ cfg.indent)
  | JsVal.obj kvs => objectItems cfg kvs (leftMargin ++ cfg.indent)
  | _ => []

/-- Opening delimiter of a container value. -/
def delimOpen : JsVal → String
  | JsVal.obj _ => "\x7b"
  | _ => "["

/-- Closing delimiter of a container value. -/
def delimClose : JsVal → String
  | JsVal.obj _ => "\x7d"
  | _ => "]"

/-- The string ends with exactly one newline character. -/
def endsWithOneNewline (s : String) : Prop :=
  s.data.getLast? = some '\n' ∧ s.data.dropLast.getLast? ≠ some '\n'

/-- Configuration produced by the constructor at the default arguments
(indent 2, maximum line length 120, default options). -/
def cfgDefault : Config :=
  ⟨"  ", Mode.object, some 120, Mode.array,
    ["name", "id", "value", "version", "date", "errors"], true, true⟩

/-- Configuration with indent 2 and maximum line length 10 (the fixture
configuration of the fill-wrap examples). -/
def cfg210 : Config :=
  ⟨"  ", Mode.object, some 10, Mode.array,
    ["name", "id", "value", "version", "date", "errors"], true, true⟩

/-- Configuration with indent 2 and maximum line length 9. -/
def cfg29 : Config :=
  ⟨"  ", Mode.object, some 9, Mode.array,
    ["name", "id", "value", "version", "date", "errors"], true, true⟩

/-- Configuration with indent 2, maximum line length 30 and priority keys
name and version (the priority-ordering example). -/
def cfg230nv : Config :=
  ⟨"  ", Mode.object, some 30, Mode.array, ["name", "version"], true, true⟩

/-- Configuration with indent 2, maximum line length 120 and the single
priority key name. -/
def cfgNameKey : Config :=
  ⟨"  ", Mode.object, some 120, Mode.array, ["name"], true, true⟩

/-- Configuration produced by the constructor at indent width 0: the
maximum line length is stored as Infinity. -/
def cfg0w : Config :=
  ⟨"", Mode.object, none, Mode.array,
    ["name", "id", "value", "version", "date", "errors"], true, true⟩

/-! ### List and string helper lemmas -/

theorem mem_of_getLast? {α : Type} : ∀ (l : List α) (a : α), l.getLast? = some a → a ∈ l
  | [], _, h => by simp at h
  | [x], a, h => by simp at h; simp [h]
  | x :: y :: t, a, h => by
      rw [List.getLast?_cons_cons] at h
      exact List.mem_cons_of_mem x (mem_of_getLast? (y :: t) a h)

theorem mem_of_dropLast {α : Type} : ∀ (l : List α) (a : α), a ∈ l.dropLast → a ∈ l
  | [], _, h => by simp at h
  | [x], a, h => by simp [List.dropLast] at h
  | x :: y :: t, a, h => by
      rw [List.dropLast_cons₂] at h
      rcases List.mem_cons.mp h with rfl | h2
      · exact List.mem_cons_self a (y :: t)
      · exact List.mem_cons_of_mem x (mem_of_dropLast (y :: t) a h2)

theorem head?_append_of_ne_nil {α : Type} (a b : List α) (h : a ≠ []) :
    (a ++ b).head? = a.head? := by
  cases a with
  | nil => exact absurd rfl h
  | cons x t => rfl

theorem data_append (s t : String) : (s ++ t).data = s.data ++ t.data :=
  String.data_append s t

theorem string_ne_nil_of_head? (s : String) (c : Char) (h : s.data.head? = some c) :
    s.data ≠ [] := by
  cases hd : s.data with
  | nil => rw [hd] at h; simp at h
  | cons a t => simp

/-! ### joinSep lemmas -/

theorem joinSep_cons (sep x : String) (r : List String) (h : r ≠ []) :
    joinSep sep (x :: r) = x ++ sep ++ joinSep sep r := by
  cases r with
  | nil => exact absurd rfl h
  | cons y t => rfl

theorem joinSep_snoc (sep x : String) (l : List String) :
    joinSep sep (l ++ [x]) = if l = [] then x else joinSep sep l ++ sep ++ x := by
  induction l with
  | nil => rfl
  | cons y t ih =>
      cases t with
      | nil => simp [joinSep]
      | cons z u =>
          rw [List.cons_append,
            joinSep_cons sep y ((z :: u) ++ [x]) (by simp),
            joinSep_cons sep y (z :: u) (by simp), ih]
          simp [String.append_assoc]

theorem joinSep_append (sep : String) (l r : List String) (hl : l ≠ []) (hr : r ≠ []) :
    joinSep sep (l ++ r) = joinSep sep l ++ sep ++ joinSep sep r := by
  induction l with
  | nil => exact absurd rfl hl
  | cons y t ih =>
      cases t with
      | nil => simp [joinSep_cons sep y r hr, joinSep]
      | cons z u =>
          rw [List.cons_append,
            joinSep_cons sep y ((z :: u) ++ r) (by simp),
            joinSep_cons sep y (z :: u) (by simp), ih (by simp)]
          simp [String.append_assoc]

theorem joinSep_no_mem (sep : String) (c : Char) (items : List String)
    (hsep : c ∉ sep.data) (hit : ∀ x ∈ items, c ∉ x.data) :
    c ∉ (joinSep sep items).data := by
  induction items with
  | nil => simp [joinSep]
  | cons x r ih =>
      cases r with
      | nil => exact hit x (by simp)
      | cons y t =>
          rw [joinSep_cons sep x (y :: t) (by simp)]
          simp only [data_append, List.mem_append]
          push_neg
          refine ⟨⟨hit x (by simp), hsep⟩, ih ?_⟩
          intro z hz
          exact hit z (List.mem_cons_of_mem x hz)

/-! ### fillWrap lemmas -/

theorem fillStep_ne_nil (m? : Option Int) (ni : String) (acc : List String) (v : String) :
    fillStep m? ni acc v ≠ [] := by
  unfold fillStep
  cases acc.getLast? with
  | none => simp
  | some lastItem =>
      dsimp only
      split
      · simp
      · simp

theorem fillStep_join (m? : Option Int) (ni : String) (acc : List String) (v : String) :
    joinSep ", " (fillStep m? ni acc v) =
      if acc = [] then v else joinSep ", " acc ++ ", " ++ v := by
  unfold fillStep
  cases hl : acc.getLast? with
  | none =>
      have hacc : acc = [] := List.getLast?_eq_none_iff.mp hl
      subst hacc
      simp [joinSep]
  | some lastItem =>
      have hne : acc ≠ [] := by
        intro h
        subst h
        simp at hl
      have hlast : acc.getLast hne = lastItem := by
        have := List.getLast?_eq_getLast acc hne
        rw [hl] at this
        exact (Option.some.injEq _ _).mp this.symm
      have hacc : acc.dropLast ++ [lastItem] = acc := by
        rw [← hlast]
        exact List.dropLast_append_getLast hne
      rw [if_neg hne]
      dsimp only
      split
      · rw [joinSep_snoc]
        conv =>
          rhs
          rw [← hacc, joinSep_snoc]
        by_cases hdl : acc.dropLast = []
        · simp [hdl, String.append_assoc]
        · simp [hdl, String.append_assoc]
      · rw [joinSep_snoc, if_neg hne]

theorem fillWrap_join_aux (m? : Option Int) (ni : String) :
    ∀ (items acc : List String), acc ≠ [] →
      joinSep ", " (items.foldl (fillStep m? ni) acc) = joinSep ", " (acc ++ items)
  | [], acc, _ => by simp
  | v :: r, acc, hacc => by
      rw [List.foldl_cons, fillWrap_join_aux m? ni r (fillStep m? ni acc v)
        (fillStep_ne_nil m? ni acc v)]
      cases hr : r with
      | nil =>
          simp only [List.append_nil]
          rw [fillStep_join, if_neg hacc, joinSep_append ", " acc [v] hacc (by simp), joinSep]
      | cons y t =>
          rw [joinSep_append ", " (fillStep m? ni acc v) (y :: t)
              (fillStep_ne_nil m? ni acc v) (by simp),
            fillStep_join, if_neg hacc,
            joinSep_append ", " acc (v :: y :: t) hacc (by simp),
            joinSep_cons ", " v (y :: t) (by simp)]
          simp [String.append_assoc]

theorem fillWrap_join (m? : Option Int) (items : List String) (ni : String) :
    joinSep ", " (fillWrap m? items ni) = joinSep ", " items := by
  cases items with
  | nil => rfl
  | cons v r =>
      unfold fillWrap
      rw [List.foldl_cons]
      have hstep : fillStep m? ni [] v = [v] := by
        unfold fillStep
        simp
      rw [hstep, fillWrap_join_aux m? ni r [v] (by simp)]
      rfl

theorem fillWrap_forall (P : String → Prop)
    (hP : ∀ a b, P a → P b → P (a ++ ", " ++ b)) (m? : Option Int) (ni : String) :
    ∀ (items acc : List String), (∀ x ∈ acc, P x) → (∀ x ∈ items, P x) →
      ∀ g ∈ items.foldl (fillStep m? ni) acc, P g
  | [], acc, hacc, _, g, hg => hacc g hg
  | v :: r, acc, hacc, hit, g, hg => by
      rw [List.foldl_cons] at hg
      refine fillWrap_forall P hP m? ni r (fillStep m? ni acc v) ?_ ?_ g hg
      · intro x hx
        unfold fillStep at hx
        cases hl : acc.getLast? with
        | none =>
            rw [hl] at hx
            rcases List.mem_append.mp hx with h | h
            · exact hacc x h
            · rw [List.mem_singleton.mp h]
              exact hit v (by simp)
        | some lastItem =>
            rw [hl] at hx
            dsimp only at hx
            split at hx
            · rcases List.mem_append.mp hx with h | h
              · exact hacc x (mem_of_dropLast acc x h)
              · rw [List.mem_singleton.mp h]
                exact hP lastItem v (hacc lastItem (mem_of_getLast? acc lastItem hl))
                  (hit v (by simp))
            · rcases List.mem_append.mp hx with h | h
              · exact hacc x h
              · rw [List.mem_singleton.mp h]
                exact hit v (by simp)
      · intro x hx
        exact hit x (List.mem_cons_of_mem v hx)

theorem fillWrap_no_nl (m? : Option Int) (items : List String) (ni : String)
    (hit : ∀ x ∈ items, '\n' ∉ x.data) :
    ∀ g ∈ fillWrap m? items ni, '\n' ∉ g.data := by
  refine fillWrap_forall (fun s => '\n' ∉ s.data) ?_ m? ni items [] (by simp) hit
  intro a b ha hb
  simp only [data_append, List.mem_append]
  push_neg
  exact ⟨⟨ha, by decide⟩, hb⟩

theorem fillWrap_head_ok (m? : Option Int) (items : List String) (ni : String)
    (hit : ∀ x ∈ items, x.data.head? ≠ some '\n') :
    ∀ g ∈ fillWrap m? items ni, g.data.head? ≠ some '\n' := by
  refine fillWrap_forall (fun s => s.data.head? ≠ some '\n') ?_ m? ni items [] (by simp) hit
  intro a b ha _
  simp only [data_append]
  cases hda : a.data with
  | nil =>
      have h2 : (", " : String).data = [',', ' '] := rfl
      simp only [List.nil_append, h2, List.cons_append, List.head?_cons]
      decide
  | cons c t =>
      rw [List.cons_append, List.cons_append, List.head?_cons]
      rw [hda] at ha
      rw [List.head?_cons] at ha
      exact ha

/-! ### trim lemmas -/

theorem head?_dropWhile_not (p : Char → Bool) (l : List Char) (a : Char)
    (h : (l.dropWhile p).head? = some a) : p a = false := by
  induction l with
  | nil => simp [List.dropWhile] at h
  | cons b r ih =>
      by_cases hb : p b
      · simp [List.dropWhile, hb] at h
        exact ih h
      · simp [List.dropWhile, hb] at h
        subst h
        simpa using hb

theorem trimChars_getLast?_not_ws (l : List Char) (c : Char)
    (h : (trimChars l).getLast? = some c) : jsWs c = false := by
  unfold trimChars at h
  rw [List.getLast?_reverse] at h
  exact head?_dropWhile_not _ _ _ h

theorem trimChars_head?_not_ws (l : List Char) (c : Char)
    (h : (trimChars l).head? = some c) : jsWs c = false := by
  unfold trimChars at h
  obtain ⟨u, hu⟩ :=
    @List.dropWhile_suffix Char ((l.dropWhile jsWs).reverse) jsWs
  have hm : (l.dropWhile jsWs) =
      ((l.dropWhile jsWs).reverse.dropWhile jsWs).reverse ++ u.reverse := by
    have := congrArg List.reverse hu
    rw [List.reverse_append, List.reverse_reverse] at this
    exact this.symm
  have hhead : (l.dropWhile jsWs).head? = some c := by
    rw [hm, head?_append_of_ne_nil]
    · exact h
    · intro hnil
      rw [hnil] at h
      simp at h
  exact head?_dropWhile_not _ _ _ hhead

theorem mem_trimChars (l : List Char) (c : Char) (h : c ∈ trimChars l) : c ∈ l := by
  unfold trimChars at h
  rw [List.mem_reverse] at h
  have h1 : c ∈ (l.dropWhile jsWs).reverse := (List.dropWhile_sublist jsWs).mem h
  rw [List.mem_reverse] at h1
  exact (List.dropWhile_sublist jsWs).mem h1

theorem jsTrim_no_nl (s : String) (h : '\n' ∉ s.data) : '\n' ∉ (jsTrim s).data := by
  intro hmem
  exact h (mem_trimChars s.data '\n' hmem)

theorem jsTrim_getLast?_ne_nl (s : String) : (jsTrim s).data.getLast? ≠ some '\n' := by
  intro h
  have := trimChars_getLast?_not_ws s.data '\n' h
  simp [jsWs] at this

theorem jsTrim_head?_ne_nl (s : String) : (jsTrim s).data.head? ≠ some '\n' := by
  intro h
  have := trimChars_head?_not_ws s.data '\n' h
  simp [jsWs] at this

/-! ### pad lemmas -/

theorem padTok_no_nl (sp : Mode) (c : Char) (hc : c ≠ '\n') :
    ∀ x ∈ padTok sp c, x ≠ '\n' := by
  intro x hx
  by_cases h1 : c = ','
  · subst h1
    have e : padTok sp ',' = [',', ' '] := rfl
    rw [e] at hx
    simp only [List.mem_cons, List.not_mem_nil, or_false] at hx
    rcases hx with rfl | rfl <;> decide
  by_cases h2 : c = ':'
  · subst h2
    have e : padTok sp ':' = [':', ' '] := rfl
    rw [e] at hx
    simp only [List.mem_cons, List.not_mem_nil, or_false] at hx
    rcases hx with rfl | rfl <;> decide
  by_cases h3 : c = '['
  · subst h3
    have e : padTok sp '[' = if padArray sp then ['[', ' '] else ['['] := rfl
    rw [e] at hx
    split at hx <;> simp only [List.mem_cons, List.not_mem_nil, or_false] at hx
    · rcases hx with rfl | rfl <;> decide
    · rcases hx with rfl
      decide
  by_cases h4 : c = ']'
  · subst h4
    have e : padTok sp ']' = if padArray sp then [' ', ']'] else [']'] := rfl
    rw [e] at hx
    split at hx <;> simp only [List.mem_cons, List.not_mem_nil, or_false] at hx
    · rcases hx with rfl | rfl <;> decide
    · rcases hx with rfl
      decide
  by_cases h5 : c = Char.ofNat 123
  · subst h5
    have e : padTok sp (Char.ofNat 123) =
        if padObject sp then [Char.ofNat 123, ' '] else [Char.ofNat 123] := rfl
    rw [e] at hx
    split at hx <;> simp only [List.mem_cons, List.not_mem_nil, or_false] at hx
    · rcases hx with rfl | rfl <;> decide
    · rcases hx with rfl
      decide
  by_cases h6 : c = Char.ofNat 125
  · subst h6
    have e : padTok sp (Char.ofNat 125) =
        if padObject sp then [' ', Char.ofNat 125] else [Char.ofNat 125] := rfl
    rw [e] at hx
    split at hx <;> simp only [List.mem_cons, List.not_mem_nil, or_false] at hx
    · rcases hx with rfl | rfl <;> decide
    · rcases hx with rfl
      decide
  have e : padTok sp c = [c] := by
    simp [padTok, h1, h2, h3, h4, h5, h6]
  rw [e] at hx
  simp only [List.mem_cons, List.not_mem_nil, or_false] at hx
  rw [hx]
  exact hc

theorem padLoop_no_nl (sp : Mode) :
    ∀ (l : List Char) (st : Nat), (∀ c ∈ l, c ≠ '\n') →
      ∀ x ∈ padLoop sp st l, x ≠ '\n'
  | [], st, _, x, hx => by cases st <;> simp [padLoop] at hx
  | c :: rest, st, hl, x, hx => by
      have hc : c ≠ '\n' := hl c (by simp)
      have hrest : ∀ d ∈ rest, d ≠ '\n' := fun d hd => hl d (List.mem_cons_of_mem c hd)
      match st with
      | 0 =>
          rw [padLoop] at hx
          split at hx
          · rcases List.mem_cons.mp hx with rfl | h2
            · exact hc
            · exact padLoop_no_nl sp rest 1 hrest x h2
          · rcases List.mem_append.mp hx with h2 | h2
            · exact padTok_no_nl sp c hc x h2
            · exact padLoop_no_nl sp rest 0 hrest x h2
      | 1 =>
          rw [padLoop] at hx
          split at hx
          · rcases List.mem_cons.mp hx with rfl | h2
            · exact hc
            · exact padLoop_no_nl sp rest 0 hrest x h2
          · split at hx
            · rcases List.mem_cons.mp hx with rfl | h2
              · exact hc
              · exact padLoop_no_nl sp rest 2 hrest x h2
            · rcases List.mem_cons.mp hx with rfl | h2
              · exact hc
              · exact padLoop_no_nl sp rest 1 hrest x h2
      | st+2 =>
          rw [padLoop] at hx
          rcases List.mem_cons.mp hx with rfl | h2
          · exact hc
          · exact padLoop_no_nl sp rest 1 hrest x h2

theorem pad_no_nl (sp : Mode) (s : String) (h : '\n' ∉ s.data) : '\n' ∉ (pad sp s).data := by
  intro hmem
  exact padLoop_no_nl sp s.data 0 (fun c hc => by rintro rfl; exact h hc) '\n' hmem rfl

theorem pad_open_bracket (sp : Mode) :
    (pad sp "[").data = ['['] ∨ (pad sp "[").data = ['[', ' '] := by
  cases sp <;> simp [pad, padLoop, padTok, padArray, padObject]

theorem pad_open_brace (sp : Mode) :
    (pad sp "\x7b").data = ['\x7b'] ∨ (pad sp "\x7b").data = ['\x7b', ' '] := by
  cases sp <;> simp [pad, padLoop, padTok, padArray, padObject]

theorem pad_close_bracket (sp : Mode) :
    (pad sp "]").data = [']'] ∨ (pad sp "]").data = [' ', ']'] := by
  cases sp <;> simp [pad, padLoop, padTok, padArray, padObject]

theorem pad_close_brace (sp : Mode) :
    (pad sp "\x7d").data = ['\x7d'] ∨ (pad sp "\x7d").data = [' ', '\x7d'] := by
  cases sp <;> simp [pad, padLoop, padTok, padArray, padObject]

/-! ### character facts about the JSON encodings -/

theorem digitChar_ne_nl (d : Nat) (hd : d < 10) : digitChar d ≠ '\n' := by
  interval_cases d <;> decide

theorem natCharsF_ne_nl : ∀ (f n : Nat), ∀ c ∈ natCharsF f n, c ≠ '\n'
  | 0, _, c, hc => by simp [natCharsF] at hc
  | f+1, 0, c, hc => by simp [natCharsF] at hc
  | f+1, n+1, c, hc => by
      rw [natCharsF] at hc
      rcases List.mem_append.mp hc with h | h
      · exact natCharsF_ne_nl f ((n+1)/10) c h
      · rw [List.mem_singleton.mp h]
        exact digitChar_ne_nl _ (Nat.mod_lt _ (by omega))

theorem natStr_no_nl (n : Nat) : '\n' ∉ (natStr n).data := by
  unfold natStr
  split
  · decide
  · intro h
    exact natCharsF_ne_nl 20 n '\n' h rfl

theorem intStr_no_nl (i : Int) : '\n' ∉ (intStr i).data := by
  unfold intStr
  split
  · rw [data_append]
    intro h
    rcases List.mem_append.mp h with h2 | h2
    · simp at h2
    · exact natStr_no_nl _ h2
  · exact natStr_no_nl _

theorem numStr_no_nl (n : JsNum) : '\n' ∉ (numStr n).data := by
  cases n with
  | fin i => exact intStr_no_nl i
  | nan => decide
  | inf => decide
  | negInf => decide

theorem hexDigit_ne_nl (d : Nat) (hd : d < 16) : hexDigit d ≠ '\n' := by
  interval_cases d <;> decide

theorem escapeChar_ne_nl (c : Char) : ∀ x ∈ escapeChar c, x ≠ '\n' := by
  intro x hx
  by_cases h1 : c = '"'
  · subst h1
    rw [show escapeChar '"' = ['\\', '"'] from rfl] at hx
    simp only [List.mem_cons, List.not_mem_nil, or_false] at hx
    rcases hx with rfl | rfl <;> decide
  by_cases h2 : c = '\\'
  · subst h2
    rw [show escapeChar '\\' = ['\\', '\\'] from rfl] at hx
    simp only [List.mem_cons, List.not_mem_nil, or_false] at hx
    rcases hx with rfl | rfl <;> decide
  by_cases h3 : c = '\x08'
  · subst h3
    rw [show escapeChar '\x08' = ['\\', 'b'] from rfl] at hx
    simp only [List.mem_cons, List.not_mem_nil, or_false] at hx
    rcases hx with rfl | rfl <;> decide
  by_cases h4 : c = '\t'
  · subst h4
    rw [show escapeChar '\t' = ['\\', 't'] from rfl] at hx
    simp only [List.mem_cons, List.not_mem_nil, or_false] at hx
    rcases hx with rfl | rfl <;> decide
  by_cases h5 : c = '\n'
  · subst h5
    rw [show escapeChar '\n' = ['\\', 'n'] from rfl] at hx
    simp only [List.mem_cons, List.not_mem_nil, or_false] at hx
    rcases hx with rfl | rfl <;> decide
  by_cases h6 : c = '\x0c'
  · subst h6
    rw [show escapeChar '\x0c' = ['\\', 'f'] from rfl] at hx
    simp only [List.mem_cons, List.not_mem_nil, or_false] at hx
    rcases hx with rfl | rfl <;> decide
  by_cases h7 : c = '\r'
  · subst h7
    rw [show escapeChar '\r' = ['\\', 'r'] from rfl] at hx
    simp only [List.mem_cons, List.not_mem_nil, or_false] at hx
    rcases hx with rfl | rfl <;> decide
  by_cases h8 : c.toNat < 32
  · have e : escapeChar c =
        ['\\', 'u', '0', '0', hexDigit (c.toNat / 16), hexDigit (c.toNat % 16)] := by
      simp [escapeChar, h1, h2, h3, h4, h5, h6, h7, h8]
    rw [e] at hx
    simp only [List.mem_cons, List.not_mem_nil, or_false] at hx
    rcases hx with rfl | rfl | rfl | rfl | rfl | rfl
    · decide
    · decide
    · decide
    · decide
    · exact hexDigit_ne_nl _ (by omega)
    · exact hexDigit_ne_nl _ (by omega)
  have e : escapeChar c = [c] := by
    simp [escapeChar, h1, h2, h3, h4, h5, h6, h7, h8]
  rw [e] at hx
  simp only [List.mem_cons, List.not_mem_nil, or_false] at hx
  rw [hx]
  intro hc
  subst hc
  exact h8 (by decide)

theorem quoteJson_no_nl (s : String) : '\n' ∉ (quoteJson s).data := by
  unfold quoteJson
  intro h
  rcases List.mem_cons.mp h with h2 | h2
  · exact absurd h2.symm (by decide)
  · rcases List.mem_append.mp h2 with h3 | h3
    · obtain ⟨l, hl, hmem⟩ := List.mem_flatten.mp h3
      obtain ⟨c, _, rfl⟩ := List.mem_map.mp hl
      exact escapeChar_ne_nl c '\n' hmem rfl
    · exact absurd (List.mem_singleton.mp h3).symm (by decide)

theorem quoteJson_head? (s : String) : (quoteJson s).data.head? = some '"' := rfl

/-! ### jsonStringify has no newline characters -/

theorem mem_jsonArrItems (xs : List JsVal) (x : String) (h : x ∈ jsonArrItems xs) :
    ∃ v ∈ xs, x = (jsonStringify v).getD "null" := by
  induction xs with
  | nil => simp [jsonArrItems] at h
  | cons v r ih =>
      rw [jsonArrItems] at h
      rcases List.mem_cons.mp h with rfl | h2
      · exact ⟨v, by simp, rfl⟩
      · obtain ⟨w, hw, hx⟩ := ih h2
        exact ⟨w, List.mem_cons_of_mem v hw, hx⟩

theorem mem_jsonObjItems (kvs : List (String × JsVal)) (x : String)
    (h : x ∈ jsonObjItems kvs) :
    ∃ e ∈ kvs, ∃ s, jsonStringify e.2 = some s ∧ x = quoteJson e.1 ++ ":" ++ s := by
  induction kvs with
  | nil => simp [jsonObjItems] at h
  | cons e r ih =>
      rw [jsonObjItems] at h
      cases he : jsonStringify e.2 with
      | none =>
          rw [he] at h
          obtain ⟨w, hw, hs⟩ := ih h
          exact ⟨w, List.mem_cons_of_mem e hw, hs⟩
      | some s =>
          rw [he] at h
          rcases List.mem_cons.mp h with rfl | h2
          · exact ⟨e, by simp, s, he, rfl⟩
          · obtain ⟨w, hw, hs⟩ := ih h2
            exact ⟨w, List.mem_cons_of_mem e hw, hs⟩

mutual

theorem jsonStringify_no_nl : ∀ (v : JsVal) (s : String), jsonStringify v = some s →
    '\n' ∉ s.data
  | JsVal.null, s, h => by
      rw [jsonStringify] at h
      rw [← Option.some.injEq _ _ |>.mp h]
      decide
  | JsVal.undef, s, h => by rw [jsonStringify] at h; exact absurd h (by simp)
  | JsVal.func, s, h => by rw [jsonStringify] at h; exact absurd h (by simp)
  | JsVal.bool b, s, h => by
      rw [jsonStringify] at h
      rw [← Option.some.injEq _ _ |>.mp h]
      cases b <;> decide
  | JsVal.num n, s, h => by
      rw [jsonStringify] at h
      rw [← Option.some.injEq _ _ |>.mp h]
      exact numStr_no_nl n
  | JsVal.str t, s, h => by
      rw [jsonStringify] at h
      rw [← Option.some.injEq _ _ |>.mp h]
      exact quoteJson_no_nl t
  | JsVal.arr xs, s, h => by
      rw [jsonStringify] at h
      rw [← Option.some.injEq _ _ |>.mp h]
      rw [data_append, data_append]
      intro hmem
      rcases List.mem_append.mp hmem with h2 | h2
      · rcases List.mem_append.mp h2 with h3 | h3
        · exact absurd h3 (by decide)
        · exact joinSep_no_mem "," '\n' (jsonArrItems xs) (by decide)
            (jsonArrItems_no_nl xs) h3
      · exact absurd h2 (by decide)
  | JsVal.obj kvs, s, h => by
      rw [jsonStringify] at h
      rw [← Option.some.injEq _ _ |>.mp h]
      rw [data_append, data_append]
      intro hmem
      rcases List.mem_append.mp hmem with h2 | h2
      · rcases List.mem_append.mp h2 with h3 | h3
        · exact absurd h3 (by decide)
        · exact joinSep_no_mem "," '\n' (jsonObjItems kvs) (by decide)
            (jsonObjItems_no_nl kvs) h3
      · exact absurd h2 (by decide)

theorem jsonArrItems_no_nl : ∀ (xs : List JsVal), ∀ x ∈ jsonArrItems xs, '\n' ∉ x.data
  | [], x, hx => by simp [jsonArrItems] at hx
  | v :: r, x, hx => by
      rw [jsonArrItems] at hx
      rcases List.mem_cons.mp hx with rfl | h2
      · cases hv : jsonStringify v with
        | none =>
            simp only [hv, Option.getD_none]
            decide
        | some s =>
            simp only [hv, Option.getD_some]
            exact jsonStringify_no_nl v s hv
      · exact jsonArrItems_no_nl r x h2

theorem jsonObjItems_no_nl : ∀ (kvs : List (String × JsVal)),
    ∀ x ∈ jsonObjItems kvs, '\n' ∉ x.data
  | [], x, hx => by simp [jsonObjItems] at hx
  | e :: r, x, hx => by
      rw [jsonObjItems] at hx
      cases he : jsonStringify e.2 with
      | none =>
          rw [he] at hx
          exact jsonObjItems_no_nl r x hx
      | some s =>
          rw [he] at hx
          rcases List.mem_cons.mp hx with rfl | h2
          · rw [data_append, data_append]
            intro hmem
            rcases List.mem_append.mp hmem with h3 | h3
            · rcases List.mem_append.mp h3 with h4 | h4
              · exact quoteJson_no_nl e.1 h4
              · exact absurd h4 (by decide)
            · exact jsonStringify_no_nl e.2 s he h3
          · exact jsonObjItems_no_nl r x h2

end

/-! ### size bounds and fuel congruence -/

theorem sizeVal_pos (v : JsVal) : 1 ≤ sizeVal v := by
  cases v <;> simp [sizeVal]

theorem sizeVal_le_sizeArr (x : JsVal) :
    ∀ (xs : List JsVal), x ∈ xs → sizeVal x ≤ sizeArr xs
  | [], h => absurd h (by simp)
  | v :: rtl, h => by
      rcases List.mem_cons.mp h with rfl | h2
      · simp [sizeArr]
        omega
      · have := sizeVal_le_sizeArr x rtl h2
        simp [sizeArr]
        omega

theorem sizeVal_le_sizeObj (x : String × JsVal) :
    ∀ (kvs : List (String × JsVal)), x ∈ kvs → sizeVal x.2 ≤ sizeObj kvs
  | [], h => absurd h (by simp)
  | e :: rtl, h => by
      rcases List.mem_cons.mp h with rfl | h2
      · simp [sizeObj]
        omega
      · have := sizeVal_le_sizeObj x rtl h2
        simp [sizeObj]
        omega

theorem mem_insertEntry (fk : List String) (e : String × JsVal) :
    ∀ (l : List (String × JsVal)) (a : String × JsVal),
      a ∈ insertEntry fk e l → a = e ∨ a ∈ l
  | [], a, h => by
      simp [insertEntry] at h
      exact Or.inl h
  | f :: rtl, a, h => by
      unfold insertEntry at h
      split at h
      · rcases List.mem_cons.mp h with rfl | h2
        · exact Or.inl rfl
        · exact Or.inr h2
      · rcases List.mem_cons.mp h with rfl | h2
        · exact Or.inr (by simp)
        · rcases mem_insertEntry fk e rtl a h2 with h3 | h3
          · exact Or.inl h3
          · exact Or.inr (List.mem_cons_of_mem f h3)

theorem mem_jsSortEntries (fk : List String) :
    ∀ (kvs : List (String × JsVal)) (a : String × JsVal),
      a ∈ jsSortEntries fk kvs → a ∈ kvs
  | [], a, h => by simp [jsSortEntries] at h
  | e :: rtl, a, h => by
      unfold jsSortEntries at h
      rw [List.foldr_cons] at h
      rcases mem_insertEntry fk e _ a h with rfl | h2
      · simp
      · exact List.mem_cons_of_mem e (mem_jsSortEntries fk rtl a h2)

theorem mem_entriesOf (cfg : Config) (kvs : List (String × JsVal)) (a : String × JsVal)
    (h : a ∈ (if cfg.sortKeys then jsSortEntries cfg.firstKeys kvs else kvs)) : a ∈ kvs := by
  split at h
  · exact mem_jsSortEntries cfg.firstKeys kvs a h
  · exact h

theorem strfFuel_congr (cfg : Config) :
    ∀ (n m : Nat) (v : JsVal) (l : String) (r : Nat),
      sizeVal v ≤ n → sizeVal v ≤ m → strfFuel cfg n v l r = strfFuel cfg m v l r
  | 0, _, v, _, _, hn, _ => by
      have := sizeVal_pos v
      omega
  | _+1, 0, v, _, _, _, hm => by
      have := sizeVal_pos v
      omega
  | n+1, m+1, v, l, r, hn, hm => by
      cases v with
      | arr xs =>
          have hxs : sizeArr xs ≤ n ∧ sizeArr xs ≤ m := by
            simp [sizeVal] at hn hm
            omega
          have harr : xs.map (fun c => (strfFuel cfg n c (l ++ cfg.indent) 2).getD "null") =
              xs.map (fun c => (strfFuel cfg m c (l ++ cfg.indent) 2).getD "null") := by
            refine List.map_congr_left ?_
            intro c hc
            rw [strfFuel_congr cfg n m c (l ++ cfg.indent) 2
              (le_trans (sizeVal_le_sizeArr c xs hc) hxs.1)
              (le_trans (sizeVal_le_sizeArr c xs hc) hxs.2)]
          simp only [strfFuel, harr]
      | obj kvs =>
          have hkv : sizeObj kvs ≤ n ∧ sizeObj kvs ≤ m := by
            simp [sizeVal] at hn hm
            omega
          have hobj : (if cfg.sortKeys then jsSortEntries cfg.firstKeys kvs else kvs).filterMap
                (fun e => (strfFuel cfg n e.2 (l ++ cfg.indent)
                    ((quoteJson e.1 ++ ": ").length + 1)).map
                  (fun s => quoteJson e.1 ++ ": " ++ s)) =
              (if cfg.sortKeys then jsSortEntries cfg.firstKeys kvs else kvs).filterMap
                (fun e => (strfFuel cfg m e.2 (l ++ cfg.indent)
                    ((quoteJson e.1 ++ ": ").length + 1)).map
                  (fun s => quoteJson e.1 ++ ": " ++ s)) := by
            refine List.filterMap_congr ?_
            intro e he
            rw [strfFuel_congr cfg n m e.2 (l ++ cfg.indent)
              ((quoteJson e.1 ++ ": ").length + 1)
              (le_trans (sizeVal_le_sizeObj e kvs (mem_entriesOf cfg kvs e he)) hkv.1)
              (le_trans (sizeVal_le_sizeObj e kvs (mem_entriesOf cfg kvs e he)) hkv.2)]
          simp only [strfFuel, hobj]
      | null => simp only [strfFuel]
      | undef => simp only [strfFuel]
      | func => simp only [strfFuel]
      | bool b => simp only [strfFuel]
      | num nv => simp only [strfFuel]
      | str sv => simp only [strfFuel]

/-! ### unfolding lemmas for strf -/

theorem strf_undef (cfg : Config) (l : String) (r : Nat) :
    strf cfg JsVal.undef l r = none := rfl

theorem strf_func (cfg : Config) (l : String) (r : Nat) :
    strf cfg JsVal.func l r = none := rfl

theorem strf_none_iff (cfg : Config) (v : JsVal) (l : String) (r : Nat) :
    strf cfg v l r = none ↔ jsonStringify v = none := by
  unfold strf
  cases hsz : sizeVal v with
  | zero =>
      have := sizeVal_pos v
      omega
  | succ n =>
      constructor
      · intro h
        by_contra hj
        cases hjs : jsonStringify v with
        | none => exact hj hjs
        | some trial =>
            rw [strfFuel, hjs] at h
            cases v with
            | null => exact absurd h (by simp)
            | undef => simp [jsonStringify] at hjs
            | func => simp [jsonStringify] at hjs
            | bool b =>
                dsimp only at h
                split at h
                · exact absurd h (by simp)
                · split at h
                  · exact absurd h (by simp)
                  · exact absurd h (by simp)
            | num nv =>
                dsimp only at h
                split at h
                · exact absurd h (by simp)
                · split at h
                  · exact absurd h (by simp)
                  · exact absurd h (by simp)
            | str sv =>
                dsimp only at h
                split at h
                · exact absurd h (by simp)
                · split at h
                  · exact absurd h (by simp)
                  · exact absurd h (by simp)
            | arr xs =>
                dsimp only at h
                split at h
                · exact absurd h (by simp)
                · split at h
                  · exact absurd h (by simp)
                  · exact absurd h (by simp)
            | obj kvs =>
                dsimp only at h
                split at h
                · exact absurd h (by simp)
                · split at h
                  · exact absurd h (by simp)
                  · exact absurd h (by simp)
      · intro hj
        rw [strfFuel, hj]

theorem strf_num_null (cfg : Config) (l : String) (r : Nat) (nv : JsNum)
    (hn : numStr nv = "null") :
    strf cfg (JsVal.num nv) l r = some "null" := by
  unfold strf
  have h1 : sizeVal (JsVal.num nv) = 1 := by simp [sizeVal]
  rw [h1]
  rw [show (1 : Nat) = 0 + 1 from rfl]
  rw [strfFuel]
  rw [show jsonStringify (JsVal.num nv) = some (numStr nv) from rfl, hn]
  dsimp only
  split
  · rename_i s heq
    split at heq
    · split at heq
      · split at heq
        · rw [show jsTrim (pad cfg.spacing "null") = "null" from rfl] at heq
          exact heq.symm
        · exact absurd heq (by simp)
      · exact absurd heq (by simp)
    · exact absurd heq (by simp)
  · rfl

theorem strf_arr (cfg : Config) (xs : List JsVal) (l : String) (r : Nat)
    (hs : cfg.sortKeys = true) :
    strf cfg (JsVal.arr xs) l r =
      some (assemble cfg "[" "]" l (l ++ cfg.indent)
        (containerItems cfg (JsVal.arr xs) l)) := by
  unfold strf
  have h1 : sizeVal (JsVal.arr xs) = sizeArr xs + 1 := by
    simp [sizeVal]
    omega
  rw [h1, strfFuel]
  have hmap : xs.map (fun c => (strfFuel cfg (sizeArr xs) c (l ++ cfg.indent) 2).getD "null") =
      xs.map (fun c => (strf cfg c (l ++ cfg.indent) 2).getD "null") :=
    List.map_congr_left (fun c hc => by
      unfold strf
      rw [strfFuel_congr cfg (sizeArr xs) (sizeVal c) c (l ++ cfg.indent) 2
        (sizeVal_le_sizeArr c xs hc) le_rfl])
  simp only [jsonStringify, hs, isObjType, containerItems, arrayItems, arrayElemItem, hmap]
  simp
  try rfl

theorem strf_obj (cfg : Config) (kvs : List (String × JsVal)) (l : String) (r : Nat)
    (hs : cfg.sortKeys = true) :
    strf cfg (JsVal.obj kvs) l r =
      some (assemble cfg "\x7b" "\x7d" l (l ++ cfg.indent)
        (containerItems cfg (JsVal.obj kvs) l)) := by
  unfold strf
  have h1 : sizeVal (JsVal.obj kvs) = sizeObj kvs + 1 := by
    simp [sizeVal]
    omega
  rw [h1, strfFuel]
  have hmap : (if cfg.sortKeys then jsSortEntries cfg.firstKeys kvs else kvs).filterMap
        (fun e => (strfFuel cfg (sizeObj kvs) e.2 (l ++ cfg.indent)
            ((quoteJson e.1 ++ ": ").length + 1)).map
          (fun s => quoteJson e.1 ++ ": " ++ s)) =
      (if cfg.sortKeys then jsSortEntries cfg.firstKeys kvs else kvs).filterMap
        (objectEntryItem cfg (l ++ cfg.indent)) :=
    List.filterMap_congr (fun e he => by
      unfold objectEntryItem strf
      rw [strfFuel_congr cfg (sizeObj kvs) (sizeVal e.2) e.2 (l ++ cfg.indent)
        ((quoteJson e.1 ++ ": ").length + 1)
        (sizeVal_le_sizeObj e kvs (mem_entriesOf cfg kvs e he)) le_rfl])
  simp only [jsonStringify, hs, isObjType, containerItems, objectItems]
  simp only [hs, eq_self_iff_true] at hmap
  simp only [hmap]
  simp

/-! ### head and last characters of rendered output -/

theorem head?_ne_nl_of_no_mem (l : List Char) (h : '\n' ∉ l) : l.head? ≠ some '\n' := by
  intro hh
  cases l with
  | nil => simp at hh
  | cons a t =>
      rw [List.head?_cons] at hh
      exact h (by rw [(Option.some.injEq _ _).mp hh]; simp)

theorem getLast?_ne_nl_of_no_mem (l : List Char) (h : '\n' ∉ l) : l.getLast? ≠ some '\n' := by
  intro hh
  exact h (mem_of_getLast? l '\n' hh)

theorem assemble_head_last (cfg : Config) (d0 d1 lm ni : String) {items : List String}
    (c0 c1 : Char) (h0 : d0.data = [c0]) (h1 : d1.data = [c1])
    (hp0 : (pad cfg.spacing d0).data = [c0] ∨ (pad cfg.spacing d0).data = [c0, ' '])
    (hp1 : (pad cfg.spacing d1).data = [c1] ∨ (pad cfg.spacing d1).data = [' ', c1]) :
    (assemble cfg d0 d1 lm ni items).data.head? = some c0 ∧
      (assemble cfg d0 d1 lm ni items).data.getLast? = some c1 := by
  unfold assemble
  split
  · rw [data_append, h0, h1]
    constructor
    · rfl
    · rw [List.getLast?_append_of_ne_nil [c0] (by simp)]
      rfl
  · split
    · unfold singleLineForm
      rw [data_append, data_append]
      constructor
      · rw [List.append_assoc,
          head?_append_of_ne_nil (pad cfg.spacing d0).data _ (by rcases hp0 with h | h <;> simp [h])]
        rcases hp0 with h | h <;> simp [h]
      · rw [List.getLast?_append_of_ne_nil _ (by rcases hp1 with h | h <;> simp [h])]
        rcases hp1 with h | h <;> simp [h]
    · unfold expandedForm
      rw [data_append, data_append, data_append, data_append]
      constructor
      · rw [head?_append_of_ne_nil _ _ (by simp [data_append, h0]),
          head?_append_of_ne_nil _ _ (by simp [data_append, h0]),
          head?_append_of_ne_nil _ _ (by simp [data_append, h0]),
          head?_append_of_ne_nil _ _ (by simp [h0]), h0]
        rfl
      · rw [List.getLast?_append_of_ne_nil _ (by simp [h1]), h1]
        rfl

theorem strfFuel_good (cfg : Config) (n : Nat) (v : JsVal) (l : String) (r : Nat)
    (s : String) (h : strfFuel cfg n v l r = some s) :
    s.data.head? ≠ some '\n' ∧ s.data.getLast? ≠ some '\n' := by
  cases n with
  | zero => simp [strfFuel] at h
  | succ n =>
      rw [strfFuel] at h
      cases hj : jsonStringify v with
      | none =>
          rw [hj] at h
          simp at h
      | some trial =>
          rw [hj] at h
          have htr : '\n' ∉ trial.data := jsonStringify_no_nl v trial hj
          have htrh := head?_ne_nl_of_no_mem trial.data htr
          have htrl := getLast?_ne_nl_of_no_mem trial.data htr
          cases v with
          | null =>
              rw [(Option.some.injEq _ _).mp h] at htrh htrl
              exact ⟨htrh, htrl⟩
          | undef => simp [jsonStringify] at hj
          | func => simp [jsonStringify] at hj
          | bool b =>
              dsimp only at h
              split at h
              · rename_i s0 heq
                rw [← (Option.some.injEq _ _).mp h]
                split at heq
                · split at heq
                  · split at heq
                    · rw [← (Option.some.injEq _ _).mp heq]
                      exact ⟨jsTrim_head?_ne_nl _, jsTrim_getLast?_ne_nl _⟩
                    · exact absurd heq (by simp)
                  · exact absurd heq (by simp)
                · exact absurd heq (by simp)
              · rw [show isObjType (JsVal.bool b) = false from rfl] at h
                simp only [if_pos] at h
                rw [(Option.some.injEq _ _).mp h] at htrh htrl
                exact ⟨htrh, htrl⟩
          | num nv =>
              dsimp only at h
              split at h
              · rename_i s0 heq
                rw [← (Option.some.injEq _ _).mp h]
                split at heq
                · split at heq
                  · split at heq
                    · rw [← (Option.some.injEq _ _).mp heq]
                      exact ⟨jsTrim_head?_ne_nl _, jsTrim_getLast?_ne_nl _⟩
                    · exact absurd heq (by simp)
                  · exact absurd heq (by simp)
                · exact absurd heq (by simp)
              · rw [show isObjType (JsVal.num nv) = false from rfl] at h
                simp only [if_pos] at h
                rw [(Option.some.injEq _ _).mp h] at htrh htrl
                exact ⟨htrh, htrl⟩
          | str sv =>
              dsimp only at h
              split at h
              · rename_i s0 heq
                rw [← (Option.some.injEq _ _).mp h]
                split at heq
                · split at heq
                  · split at heq
                    · rw [← (Option.some.injEq _ _).mp heq]
                      exact ⟨jsTrim_head?_ne_nl _, jsTrim_getLast?_ne_nl _⟩
                    · exact absurd heq (by simp)
                  · exact absurd heq (by simp)
                · exact absurd heq (by simp)
              · rw [show isObjType (JsVal.str sv) = false from rfl] at h
                simp only [if_pos] at h
                rw [(Option.some.injEq _ _).mp h] at htrh htrl
                exact ⟨htrh, htrl⟩
          | arr xs =>
              dsimp only at h
              split at h
              · rename_i s0 heq
                rw [← (Option.some.injEq _ _).mp h]
                split at heq
                · split at heq
                  · split at heq
                    · rw [← (Option.some.injEq _ _).mp heq]
                      exact ⟨jsTrim_head?_ne_nl _, jsTrim_getLast?_ne_nl _⟩
                    · exact absurd heq (by simp)
                  · exact absurd heq (by simp)
                · exact absurd heq (by simp)
              · rw [if_neg (show ¬(isObjType (JsVal.arr xs) = false) by simp [isObjType])] at h
                injection h with h2
                subst h2
                refine ⟨?_, ?_⟩
                · rw [(assemble_head_last cfg "[" "]" l (l ++ cfg.indent) '[' ']' rfl rfl
                    (pad_open_bracket cfg.spacing) (pad_close_bracket cfg.spacing)).1]
                  decide
                · rw [(assemble_head_last cfg "[" "]" l (l ++ cfg.indent) '[' ']' rfl rfl
                    (pad_open_bracket cfg.spacing) (pad_close_bracket cfg.spacing)).2]
                  decide
          | obj kvs =>
              dsimp only at h
              split at h
              · rename_i s0 heq
                rw [← (Option.some.injEq _ _).mp h]
                split at heq
                · split at heq
                  · split at heq
                    · rw [← (Option.some.injEq _ _).mp heq]
                      exact ⟨jsTrim_head?_ne_nl _, jsTrim_getLast?_ne_nl _⟩
                    · exact absurd heq (by simp)
                  · exact absurd heq (by simp)
                · exact absurd heq (by simp)
              · rw [if_neg (show ¬(isObjType (JsVal.obj kvs) = false) by simp [isObjType])] at h
                injection h with h2
                subst h2
                refine ⟨?_, ?_⟩
                · rw [(assemble_head_last cfg "\x7b" "\x7d" l (l ++ cfg.indent) '\x7b' '\x7d'
                    rfl rfl (pad_open_brace cfg.spacing) (pad_close_brace cfg.spacing)).1]
                  decide
                · rw [(assemble_head_last cfg "\x7b" "\x7d" l (l ++ cfg.indent) '\x7b' '\x7d'
                    rfl rfl (pad_open_brace cfg.spacing) (pad_close_brace cfg.spacing)).2]
                  decide

theorem strf_good (cfg : Config) (v : JsVal) (l : String) (r : Nat) (s : String)
    (h : strf cfg v l r = some s) :
    s.data.head? ≠ some '\n' ∧ s.data.getLast? ≠ some '\n' :=
  strfFuel_good cfg (sizeVal v) v l r s h

/-! ### no newline anywhere when the maximum length is infinite -/

theorem assemble_no_nl (cfg : Config) (hm : cfg.maxLength = none) (d0 d1 lm ni : String)
    (items : List String)
    (hd0 : '\n' ∉ d0.data) (hd1 : '\n' ∉ d1.data)
    (hit : ∀ x ∈ items, '\n' ∉ x.data) :
    '\n' ∉ (assemble cfg d0 d1 lm ni items).data := by
  unfold assemble
  split
  · rw [data_append]
    intro hmem
    rcases List.mem_append.mp hmem with h | h
    · exact hd0 h
    · exact hd1 h
  · rw [if_pos (by rw [hm]; rfl)]
    unfold singleLineForm
    rw [data_append, data_append]
    intro hmem
    rcases List.mem_append.mp hmem with h | h
    · rcases List.mem_append.mp h with h2 | h2
      · exact pad_no_nl cfg.spacing d0 hd0 h2
      · exact joinSep_no_mem ", " '\n' items (by decide) hit h2
    · exact pad_no_nl cfg.spacing d1 hd1 h

theorem strfFuel_no_nl (cfg : Config) (hm : cfg.maxLength = none) :
    ∀ (n : Nat) (v : JsVal) (l : String) (r : Nat) (s : String),
      strfFuel cfg n v l r = some s → '\n' ∉ s.data
  | 0, v, l, r, s, h => by simp [strfFuel] at h
  | n+1, v, l, r, s, h => by
      rw [strfFuel] at h
      cases hj : jsonStringify v with
      | none =>
          rw [hj] at h
          simp at h
      | some trial =>
          rw [hj] at h
          have htr : '\n' ∉ trial.data := jsonStringify_no_nl v trial hj
          have hfast : ∀ s0 : String,
              (if cfg.sortKeys = false ∨ isObjType v = false then
                if leAvail cfg.maxLength trial.length (l.length + r) = true then
                  if leAvail cfg.maxLength (jsTrim (pad cfg.spacing trial)).length
                      (l.length + r) = true then
                    some (jsTrim (pad cfg.spacing trial))
                  else none
                else none
              else none) = some s0 → '\n' ∉ s0.data := by
            intro s0 heq
            split at heq
            · split at heq
              · split at heq
                · rw [← (Option.some.injEq _ _).mp heq]
                  exact jsTrim_no_nl _ (pad_no_nl cfg.spacing trial htr)
                · exact absurd heq (by simp)
              · exact absurd heq (by simp)
            · exact absurd heq (by simp)
          cases v with
          | null =>
              rw [← (Option.some.injEq _ _).mp h]
              exact htr
          | undef => simp [jsonStringify] at hj
          | func => simp [jsonStringify] at hj
          | bool b =>
              dsimp only at h
              split at h
              · rename_i s0 heq
                rw [← (Option.some.injEq _ _).mp h]
                exact hfast s0 heq
              · rw [show isObjType (JsVal.bool b) = false from rfl] at h
                simp only [if_pos] at h
                rw [← (Option.some.injEq _ _).mp h]
                exact htr
          | num nv =>
              dsimp only at h
              split at h
              · rename_i s0 heq
                rw [← (Option.some.injEq _ _).mp h]
                exact hfast s0 heq
              · rw [show isObjType (JsVal.num nv) = false from rfl] at h
                simp only [if_pos] at h
                rw [← (Option.some.injEq _ _).mp h]
                exact htr
          | str sv =>
              dsimp only at h
              split at h
              · rename_i s0 heq
                rw [← (Option.some.injEq _ _).mp h]
                exact hfast s0 heq
              · rw [show isObjType (JsVal.str sv) = false from rfl] at h
                simp only [if_pos] at h
                rw [← (Option.some.injEq _ _).mp h]
                exact htr
          | arr xs =>
              dsimp only at h
              split at h
              · rename_i s0 heq
                rw [← (Option.some.injEq _ _).mp h]
                exact hfast s0 heq
              · rw [if_neg (show ¬(isObjType (JsVal.arr xs) = false) by simp [isObjType])] at h
                rw [← (Option.some.injEq _ _).mp h]
                have hit0 : ∀ x ∈ xs.map
                    (fun c => (strfFuel cfg n c (l ++ cfg.indent) 2).getD "null"),
                    '\n' ∉ x.data := by
                  intro x hx
                  obtain ⟨c, _, rfl⟩ := List.mem_map.mp hx
                  cases hc : strfFuel cfg n c (l ++ cfg.indent) 2 with
                  | none =>
                      simp only [hc, Option.getD_none]
                      decide
                  | some sc =>
                      simp only [hc, Option.getD_some]
                      exact strfFuel_no_nl cfg hm n c (l ++ cfg.indent) 2 sc hc
                refine assemble_no_nl cfg hm "[" "]" l (l ++ cfg.indent) _ (by decide)
                  (by decide) ?_
                split
                · exact fillWrap_no_nl cfg.maxLength _ _ hit0
                · exact hit0
          | obj kvs =>
              dsimp only at h
              split at h
              · rename_i s0 heq
                rw [← (Option.some.injEq _ _).mp h]
                exact hfast s0 heq
              · rw [if_neg (show ¬(isObjType (JsVal.obj kvs) = false) by simp [isObjType])] at h
                rw [← (Option.some.injEq _ _).mp h]
                have hit0 : ∀ x ∈ (if cfg.sortKeys = true then jsSortEntries cfg.firstKeys kvs
                      else kvs).filterMap
                      (fun e => (strfFuel cfg n e.2 (l ++ cfg.indent)
                          ((quoteJson e.1 ++ ": ").length + 1)).map
                        (fun s => quoteJson e.1 ++ ": " ++ s)),
                    '\n' ∉ x.data := by
                  intro x hx
                  obtain ⟨e, _, he⟩ := List.mem_filterMap.mp hx
                  cases hc : strfFuel cfg n e.2 (l ++ cfg.indent)
                      ((quoteJson e.1 ++ ": ").length + 1) with
                  | none => rw [hc] at he; simp at he
                  | some sc =>
                      rw [hc] at he
                      simp only [Option.map_some'] at he
                      rw [← (Option.some.injEq _ _).mp he]
                      rw [data_append, data_append]
                      intro hmem
                      rcases List.mem_append.mp hmem with h2 | h2
                      · rcases List.mem_append.mp h2 with h3 | h3
                        · exact quoteJson_no_nl e.1 h3
                        · exact absurd h3 (by decide)
                      · exact strfFuel_no_nl cfg hm n e.2 (l ++ cfg.indent)
                          ((quoteJson e.1 ++ ": ").length + 1) sc hc h2
                refine assemble_no_nl cfg hm "\x7b" "\x7d" l (l ++ cfg.indent) _ (by decide)
                  (by decide) ?_
                split
                · exact fillWrap_no_nl cfg.maxLength _ _ hit0
                · exact hit0

/-! ### comparator lemmas -/

theorem lexLt_irrefl : ∀ l : List Char, lexLt l l = false
  | [] => rfl
  | a :: as => by
      rw [lexLt]
      rw [if_neg (lt_irrefl a), if_neg (lt_irrefl a)]
      exact lexLt_irrefl as

theorem lexLt_asymm : ∀ l m : List Char, lexLt l m = true → lexLt m l = false
  | [], [], h => by simp [lexLt] at h
  | [], _ :: _, _ => rfl
  | _ :: _, [], h => by simp [lexLt] at h
  | a :: as, b :: bs, h => by
      rw [lexLt] at h ⊢
      by_cases hab : a < b
      · rw [if_neg (lt_asymm hab), if_pos hab]
      · rw [if_neg hab] at h
        by_cases hba : b < a
        · rw [if_pos hba] at h
          exact absurd h (by simp)
        · rw [if_neg hba] at h
          rw [if_neg hba, if_neg hab]
          exact lexLt_asymm as bs h

theorem lexLt_head (a b : Char) (as bs : List Char) (hab : a < b) :
    lexLt (a :: as) (b :: bs) = true := by
  rw [lexLt, if_pos hab]

theorem lexLt_append_of_eq_len : ∀ (as bs xs ys : List Char), as.length = bs.length →
    lexLt as bs = true → lexLt (as ++ xs) (bs ++ ys) = true
  | [], [], _, _, _, h => by simp [lexLt] at h
  | [], _ :: _, _, _, hl, _ => by simp at hl
  | _ :: _, [], _, _, hl, _ => by simp at hl
  | a :: as, b :: bs, xs, ys, hl, h => by
      rw [lexLt] at h
      rw [List.cons_append, List.cons_append, lexLt]
      by_cases hab : a < b
      · rw [if_pos hab]
      · rw [if_neg hab] at h ⊢
        by_cases hba : b < a
        · rw [if_pos hba] at h
          exact absurd h (by simp)
        · rw [if_neg hba] at h ⊢
          exact lexLt_append_of_eq_len as bs xs ys (by simpa using hl) h

theorem cons_of_head? (l : List Char) (c : Char) (h : l.head? = some c) :
    l = c :: l.tail := by
  cases l with
  | nil => simp at h
  | cons a t =>
      rw [List.head?_cons] at h
      rw [(Option.some.injEq _ _).mp h.symm]
      rfl

set_option maxRecDepth 40000 in
theorem pad3_mono : ∀ i j : Fin 100, i.val < j.val →
    lexLt (pad3 i.val).data (pad3 j.val).data = true := by decide

set_option maxRecDepth 40000 in
theorem pad3_head : ∀ i : Fin 100, (pad3 i.val).data.head? = some ' ' := by decide

set_option maxRecDepth 40000 in
theorem pad3_len : ∀ i : Fin 100, (pad3 i.val).data.length = 3 := by decide

theorem idxEntryAux_spec : ∀ (fk : List String) (k : String) (base i : Nat) (p : String),
    idxEntryAux k base fk = some (i, p) →
      p = k ∧ base ≤ i ∧ i - base < fk.length ∧ fk.get? (i - base) = some p
  | [], k, base, i, p, h => by simp [idxEntryAux] at h
  | q :: rest, k, base, i, p, h => by
      rw [idxEntryAux] at h
      cases hr : idxEntryAux k (base+1) rest with
      | some e =>
          rw [hr] at h
          dsimp only at h
          have he : e = (i, p) := (Option.some.injEq _ _).mp h
          subst he
          obtain ⟨h1, h2, h3, h4⟩ := idxEntryAux_spec rest k (base+1) i p hr
          refine ⟨h1, by omega, by simp; omega, ?_⟩
          have hsub : i - base = (i - (base+1)) + 1 := by omega
          rw [hsub, List.get?_cons_succ]
          exact h4
      | none =>
          rw [hr] at h
          dsimp only at h
          split at h
          · rename_i hq
            have hpair : (base, q) = (i, p) := (Option.some.injEq _ _).mp h
            have hbi : base = i := congrArg Prod.fst hpair
            have hqp : q = p := congrArg Prod.snd hpair
            subst hbi
            subst hqp
            refine ⟨hq, le_rfl, by simp, ?_⟩
            simp
          · exact absurd h (by simp)

theorem idxEntryAux_isSome_of_mem : ∀ (fk : List String) (k : String) (base : Nat),
    k ∈ fk → (idxEntryAux k base fk).isSome = true
  | [], k, base, h => absurd h (by simp)
  | q :: rest, k, base, h => by
      rw [idxEntryAux]
      cases hr : idxEntryAux k (base+1) rest with
      | some e => rfl
      | none =>
          dsimp only
          rcases List.mem_cons.mp h with rfl | h2
          · rw [if_pos rfl]
            rfl
          · have hsome := idxEntryAux_isSome_of_mem rest k (base+1) h2
            rw [hr] at hsome
            simp at hsome

theorem idxEntry_spec (fk : List String) (k : String) (i : Nat) (p : String)
    (h : idxEntry fk k = some (i, p)) :
    p = k ∧ i < fk.length ∧ fk.get? i = some p := by
  obtain ⟨h1, _, h3, h4⟩ := idxEntryAux_spec fk k 0 i p h
  rw [Nat.sub_zero] at h3 h4
  exact ⟨h1, h3, h4⟩

theorem idxEntry_isSome_of_mem (fk : List String) (k : String) (h : k ∈ fk) :
    (idxEntry fk k).isSome = true :=
  idxEntryAux_isSome_of_mem fk k 0 h

theorem localeCompare_neg_iff (a b : String) :
    localeCompare a b < 0 ↔ lexLt a.data b.data = true := by
  unfold localeCompare
  split
  · rename_i h
    exact ⟨fun _ => h, fun _ => by omega⟩
  · rename_i h
    split
    · exact ⟨fun hc => absurd hc (by omega), fun hc => absurd hc h⟩
    · exact ⟨fun hc => absurd hc (by omega), fun hc => absurd hc h⟩

theorem localeCompare_pos_iff (a b : String) :
    0 < localeCompare a b ↔ lexLt b.data a.data = true := by
  unfold localeCompare
  split
  · rename_i h
    refine ⟨fun hc => absurd hc (by omega), fun hc => ?_⟩
    rw [lexLt_asymm a.data b.data h] at hc
    exact absurd hc (by simp)
  · rename_i h
    split
    · rename_i h2
      exact ⟨fun _ => h2, fun _ => by omega⟩
    · rename_i h2
      exact ⟨fun hc => absurd hc (by omega), fun hc => absurd hc h2⟩

theorem localeCompare_eq_zero (a b : String) (h1 : lexLt a.data b.data = false)
    (h2 : lexLt b.data a.data = false) : localeCompare a b = 0 := by
  unfold localeCompare
  rw [if_neg (by simp [h1]), if_neg (by simp [h2])]

/-! ### heads of container items and the two assembled forms -/

theorem joinSep_head_ok (items : List String)
    (hit : ∀ x ∈ items, x.data.head? ≠ some '\n') :
    (joinSep ", " items).data.head? ≠ some '\n' := by
  cases items with
  | nil => simp [joinSep]
  | cons x r =>
      cases r with
      | nil => exact hit x (by simp)
      | cons y t =>
          rw [joinSep_cons ", " x (y :: t) (by simp), data_append, data_append]
          rw [List.append_assoc]
          cases hx : x.data with
          | nil =>
              rw [List.nil_append]
              rw [show (", " : String).data = [',', ' '] from rfl, List.cons_append,
                List.head?_cons]
              decide
          | cons c ct =>
              rw [List.cons_append, List.head?_cons]
              have := hit x (by simp)
              rw [hx, List.head?_cons] at this
              exact this

theorem containerItems_head_ok (cfg : Config) (v : JsVal) (l : String) :
    ∀ g ∈ containerItems cfg v l, g.data.head? ≠ some '\n' := by
  intro g hg
  cases v with
  | arr xs =>
      rw [show containerItems cfg (JsVal.arr xs) l = arrayItems cfg xs (l ++ cfg.indent)
        from rfl] at hg
      unfold arrayItems at hg
      dsimp only at hg
      have base : ∀ x ∈ xs.map (arrayElemItem cfg (l ++ cfg.indent)),
          x.data.head? ≠ some '\n' := by
        intro x hx
        obtain ⟨c, _, rfl⟩ := List.mem_map.mp hx
        unfold arrayElemItem
        cases hc : strf cfg c (l ++ cfg.indent) 2 with
        | none =>
            simp only [Option.getD_none]
            decide
        | some sc =>
            simp only [Option.getD_some]
            exact (strf_good cfg c (l ++ cfg.indent) 2 sc hc).1
      split at hg
      · exact fillWrap_head_ok cfg.maxLength _ _ base g hg
      · exact base g hg
  | obj kvs =>
      rw [show containerItems cfg (JsVal.obj kvs) l = objectItems cfg kvs (l ++ cfg.indent)
        from rfl] at hg
      unfold objectItems at hg
      dsimp only at hg
      have base : ∀ x ∈ (if cfg.sortKeys = true then jsSortEntries cfg.firstKeys kvs
            else kvs).filterMap (objectEntryItem cfg (l ++ cfg.indent)),
          x.data.head? ≠ some '\n' := by
        intro x hx
        obtain ⟨e, _, he⟩ := List.mem_filterMap.mp hx
        unfold objectEntryItem at he
        cases hc : strf cfg e.2 (l ++ cfg.indent) ((quoteJson e.1 ++ ": ").length + 1) with
        | none =>
            rw [hc] at he
            simp at he
        | some sc =>
            rw [hc] at he
            simp only [Option.map_some'] at he
            rw [← (Option.some.injEq _ _).mp he]
            rw [data_append, data_append, List.append_assoc]
            rw [show (quoteJson e.1).data = '"' :: ((e.1.data.map escapeChar).flatten ++ ['"'])
              from rfl]
            rw [List.cons_append, List.head?_cons]
            decide
      split at hg
      · exact fillWrap_head_ok cfg.maxLength _ _ base g hg
      · exact base g hg
  | null => simp [containerItems] at hg
  | undef => simp [containerItems] at hg
  | func => simp [containerItems] at hg
  | bool b => simp [containerItems] at hg
  | num nv => simp [containerItems] at hg
  | str sv => simp [containerItems] at hg

theorem expandedForm_get?_one (cfg : Config) (d0 d1 lm ni : String) (items : List String)
    (c0 : Char) (h0 : d0.data = [c0]) :
    (expandedForm cfg d0 d1 lm ni items).data.get? 1 = some '\n' := by
  unfold expandedForm
  rw [data_append, data_append, data_append, data_append, h0]
  rw [List.append_assoc, List.append_assoc, List.append_assoc]
  rw [List.singleton_append]
  rw [show ("\n" ++ lm).data = '\n' :: lm.data from by rw [data_append]; rfl]
  rw [List.cons_append, List.cons_append]
  rfl

theorem singleLineForm_get?_one_ne_nl (cfg : Config) (d0 d1 : String) (items : List String)
    (c0 c1 : Char)
    (hp0 : (pad cfg.spacing d0).data = [c0] ∨ (pad cfg.spacing d0).data = [c0, ' '])
    (hp1 : (pad cfg.spacing d1).data = [c1] ∨ (pad cfg.spacing d1).data = [' ', c1])
    (hc1 : c1 ≠ '\n')
    (hit : ∀ x ∈ items, x.data.head? ≠ some '\n') :
    (singleLineForm cfg d0 d1 items).data.get? 1 ≠ some '\n' := by
  unfold singleLineForm
  rw [data_append, data_append, List.append_assoc]
  rcases hp0 with h | h
  · rw [h, List.singleton_append, List.get?_cons_succ]
    cases hj : (joinSep ", " items).data with
    | nil =>
        rw [List.nil_append]
        rcases hp1 with h1 | h1
        · rw [h1]
          intro hh
          have : c1 = '\n' := (Option.some.injEq _ _).mp hh
          exact hc1 this
        · rw [h1]
          intro hh
          have : ' ' = '\n' := (Option.some.injEq _ _).mp hh
          exact absurd this (by decide)
    | cons jc jt =>
        rw [List.cons_append]
        intro hh
        have hjc : jc = '\n' := (Option.some.injEq _ _).mp hh
        have := joinSep_head_ok items hit
        rw [hj, List.head?_cons, hjc] at this
        exact this rfl
  · rw [h, List.cons_append, List.cons_append, List.get?_cons_succ, List.get?_cons_zero]
    intro hh
    have : ' ' = '\n' := (Option.some.injEq _ _).mp hh
    exact absurd this (by decide)

theorem assemble_single_iff (cfg : Config) (m : Int) (hm : cfg.maxLength = some m)
    (d0 d1 lm ni : String) (items : List String) (hne : items ≠ [])
    (c0 c1 : Char) (h0 : d0.data = [c0])
    (hp0 : (pad cfg.spacing d0).data = [c0] ∨ (pad cfg.spacing d0).data = [c0, ' '])
    (hp1 : (pad cfg.spacing d1).data = [c1] ∨ (pad cfg.spacing d1).data = [' ', c1])
    (hc1 : c1 ≠ '\n')
    (hit : ∀ x ∈ items, x.data.head? ≠ some '\n') :
    assemble cfg d0 d1 lm ni items = singleLineForm cfg d0 d1 items ↔
      ((joinSep ", " items).length : Int) + lm.length + 2 < m := by
  unfold assemble
  rw [if_neg hne]
  split
  · rename_i hlt
    rw [hm] at hlt
    simp only [ltMax, decide_eq_true_eq] at hlt
    constructor
    · intro _
      push_cast at hlt
      omega
    · intro _
      rfl
  · rename_i hlt
    rw [hm] at hlt
    simp only [ltMax, decide_eq_true_eq] at hlt
    constructor
    · intro heq
      exfalso
      have h1 := expandedForm_get?_one cfg d0 d1 lm ni items c0 h0
      have h2 := singleLineForm_get?_one_ne_nl cfg d0 d1 items c0 c1 hp0 hp1 hc1 hit
      rw [heq] at h1
      exact h2 h1
    · intro hcond
      exfalso
      apply hlt
      push_cast
      omega

/-! ### dropped entries do not contribute -/

theorem filterMap_filter_isSome {α β : Type} (f : α → Option β) :
    ∀ l : List α, l.filterMap f = (l.filter (fun a => (f a).isSome)).filterMap f
  | [] => rfl
  | a :: r => by
      rw [List.filterMap_cons, List.filter_cons]
      cases hf : f a with
      | none =>
          rw [if_neg (by simp [hf])]
          exact filterMap_filter_isSome f r
      | some b =>
          rw [if_pos (by simp [hf]), List.filterMap_cons, hf]
          rw [← filterMap_filter_isSome f r]

/-! ## The claims -/

/-- Claim C9: the fill-wrap pass only regroups consecutive items onto shared
lines and never alters their content: joining the returned group strings with
a comma and space yields exactly the same string as joining the input item
strings the same way — order preserved, no item dropped, duplicated, or
modified. -/
theorem claim_C9 (m? : Option Int) (items : List String) (nextIndent : String) :
    joinSep ", " (fillWrap m? items nextIndent) = joinSep ", " items :=
  fillWrap_join m? items nextIndent

/-- Claim C10: a non-finite number (NaN or either infinity) renders as the
literal null at every margin and under every configuration, so at the root
stringify returns null plus the trailing newline, and an object entry whose
value is non-finite is kept with value null rather than dropped. -/
theorem claim_C10 :
    (∀ (cfg : Config) (l : String) (r : Nat),
        strf cfg (JsVal.num JsNum.nan) l r = some "null" ∧
        strf cfg (JsVal.num JsNum.inf) l r = some "null" ∧
        strf cfg (JsVal.num JsNum.negInf) l r = some "null") ∧
    stringify cfgDefault (JsVal.num JsNum.nan) = "null\n" ∧
    stringify cfgDefault (JsVal.obj [("a", JsVal.num JsNum.inf)]) =
      "\x7b \"a\": null \x7d\n" :=
  ⟨fun cfg l r => ⟨strf_num_null cfg l r JsNum.nan rfl, strf_num_null cfg l r JsNum.inf rfl,
      strf_num_null cfg l r JsNum.negInf rfl⟩,
   by decide, by decide⟩

/-- Claim C7, counterexample: constructing with maximum line length 0 is
not rejected; the constructor succeeds and silently replaces the value by
the default 120 (the expression maxLineLength || 120). -/
theorem claim_C7_counterexample :
    mkConfig 2 0 defaultOptions =
      Except.ok (⟨"  ", Mode.object, some 120, Mode.array,
        ["name", "id", "value", "version", "date", "errors"], true, true⟩ : Config) := by
  rfl

/-- Claim C7, amended: a negative indent width is rejected at construction
(the space repetition throws a RangeError); a zero maximum line length is
silently replaced by the default 120; a negative maximum line length is
silently accepted as-is.  Only the negative indent is rejected at
construction time. -/
theorem claim_C7_amended :
    (∀ (i ml : Int) (o : Options), i < 0 →
        mkConfig i ml o = Except.error "Invalid count value") ∧
    (∀ o : Options, mkConfig 2 0 o =
        Except.ok ⟨"  ", o.spacing, some 120, o.fill, o.firstKeys, o.sortKeys,
          o.appendNewLine⟩) ∧
    (∀ o : Options, mkConfig 2 (-5) o =
        Except.ok ⟨"  ", o.spacing, some (-5), o.fill, o.firstKeys, o.sortKeys,
          o.appendNewLine⟩) := by
  refine ⟨?_, ?_, ?_⟩
  · intro i ml o hi
    unfold mkConfig
    rw [if_pos hi]
  · intro o
    rfl
  · intro o
    rfl

/-- Claim C7, witness: the amended claim applied at indent width -1. -/
theorem claim_C7_witness :
    mkConfig (-1) 120 defaultOptions = Except.error "Invalid count value" :=
  claim_C7_amended.1 (-1) 120 defaultOptions (by decide)

/-- Claim C5: an object entry whose value renders to Absence contributes no
item at all (neither key nor value), and the item list is unchanged when
such entries are removed from the input; an array element that renders to
Absence becomes the literal null at its position, and the item list has
exactly one item per element (no holes).  The two concrete fixture examples
follow. -/
theorem claim_C5 :
    (∀ (cfg : Config) (ni : String) (e : String × JsVal),
        jsonStringify e.2 = none → objectEntryItem cfg ni e = none) ∧
    (∀ (cfg : Config) (ni : String) (es : List (String × JsVal)),
        es.filterMap (objectEntryItem cfg ni) =
          (es.filter (fun e => (jsonStringify e.2).isSome)).filterMap
            (objectEntryItem cfg ni)) ∧
    (∀ (cfg : Config) (ni : String) (xs : List JsVal),
        (xs.map (arrayElemItem cfg ni)).length = xs.length ∧
        (∀ (i : Nat) (w : JsVal), xs.get? i = some w → jsonStringify w = none →
          (xs.map (arrayElemItem cfg ni)).get? i = some "null")) ∧
    stringify cfgDefault (JsVal.obj [("a", JsVal.num (JsNum.fin 1)), ("b", JsVal.undef),
      ("c", JsVal.num (JsNum.fin 3))]) = "\x7b \"a\": 1, \"c\": 3 \x7d\n" ∧
    stringify cfgDefault (JsVal.arr [JsVal.str "a", JsVal.undef]) = "[\"a\", null]\n" := by
  refine ⟨?_, ?_, ?_, by decide, by decide⟩
  · intro cfg ni e hj
    unfold objectEntryItem
    rw [(strf_none_iff cfg e.2 ni ((quoteJson e.1 ++ ": ").length + 1)).mpr hj]
    rfl
  · intro cfg ni es
    have hpred : ∀ e : String × JsVal,
        (objectEntryItem cfg ni e).isSome = (jsonStringify e.2).isSome := by
      intro e
      unfold objectEntryItem
      cases hs : strf cfg e.2 ni ((quoteJson e.1 ++ ": ").length + 1) with
      | none =>
          rw [(strf_none_iff cfg e.2 ni ((quoteJson e.1 ++ ": ").length + 1)).mp hs]
          rfl
      | some s =>
          cases hj : jsonStringify e.2 with
          | none =>
              rw [(strf_none_iff cfg e.2 ni ((quoteJson e.1 ++ ": ").length + 1)).mpr hj] at hs
              exact absurd hs (by simp)
          | some t => rfl
    rw [filterMap_filter_isSome (objectEntryItem cfg ni) es]
    congr 1
    refine List.filter_congr ?_
    intro e _
    rw [hpred e]
  · intro cfg ni xs
    refine ⟨by simp, ?_⟩
    intro i w hw hj
    rw [List.get?_map, hw]
    simp only [Option.map_some']
    unfold arrayElemItem
    rw [(strf_none_iff cfg w ni 2).mpr hj]
    rfl

/-- Claim C5, witness: the dropped object entry and the nulled array element
at concrete inputs, through the claim theorem. -/
theorem claim_C5_witness :
    objectEntryItem cfgDefault "  " ("b", JsVal.undef) = none ∧
    (([JsVal.str "a", JsVal.undef].map (arrayElemItem cfgDefault "  ")).get? 1 =
      some "null") :=
  ⟨claim_C5.1 cfgDefault "  " ("b", JsVal.undef) rfl,
   (claim_C5.2.2.1 cfgDefault "  " [JsVal.str "a", JsVal.undef]).2 1 JsVal.undef rfl rfl⟩

/-- Claim C6: the output of stringify ends with exactly one newline when the
trailing-newline option is on and does not end with a newline when it is
off; when the root value normalizes to Absence the output is exactly the
empty string plus the optional newline. -/
theorem claim_C6 (cfg : Config) (v : JsVal) :
    (cfg.appendNewLine = true → endsWithOneNewline (stringify cfg v)) ∧
    (cfg.appendNewLine = false → (stringify cfg v).data.getLast? ≠ some '\n') ∧
    (jsonStringify v = none → stringify cfg v = (if cfg.appendNewLine then "\n" else "")) := by
  have hres : ((strf cfg v "" 0).getD "").data.getLast? ≠ some '\n' := by
    cases hs : strf cfg v "" 0 with
    | none => simp
    | some s =>
        simp only [Option.getD_some]
        exact (strf_good cfg v "" 0 s hs).2
  refine ⟨?_, ?_, ?_⟩
  · intro ha
    unfold stringify
    rw [ha]
    simp only [if_pos]
    constructor
    · rw [data_append]
      rw [List.getLast?_append_of_ne_nil _ (by decide)]
      rfl
    · rw [data_append]
      rw [show ("\n" : String).data = ['\n'] from rfl]
      rw [List.dropLast_concat]
      exact hres
  · intro hb
    unfold stringify
    rw [hb]
    simp only [Bool.false_eq_true, if_false]
    rw [show ((strf cfg v "" 0).getD "") ++ "" = (strf cfg v "" 0).getD "" from by
      apply String.ext
      rw [data_append]
      simp]
    exact hres
  · intro hj
    unfold stringify
    rw [(strf_none_iff cfg v "" 0).mpr hj]
    cases hc : cfg.appendNewLine
    · rfl
    · rfl

/-- Claim C6, witness: the claim theorem applied at a scalar root with the
newline on, and at an Absence root. -/
theorem claim_C6_witness :
    endsWithOneNewline (stringify cfgDefault (JsVal.num (JsNum.fin 1))) ∧
    stringify cfgDefault JsVal.undef = "\n" :=
  ⟨(claim_C6 cfgDefault (JsVal.num (JsNum.fin 1))).1 rfl,
   (claim_C6 cfgDefault JsVal.undef).2.2 rfl⟩

/-- Claim C8: with indent width 0 the constructor stores an infinite
maximum line length, and the rendered output (before the optional trailing
newline) contains no newline character for any input value: every
container is rendered on a single line. -/
theorem claim_C8 (ml : Int) (o : Options) (cfg : Config) (v : JsVal)
    (h : mkConfig 0 ml o = Except.ok cfg) :
    '\n' ∉ ((strf cfg v "" 0).getD "").data := by
  unfold mkConfig at h
  rw [if_neg (by omega)] at h
  injection h with h2
  have hmax : cfg.maxLength = none := by
    rw [← h2]
    have he : (⟨List.replicate (Int.toNat 0) ' '⟩ : String) = "" := by
      apply String.ext
      simp
    show (if (⟨List.replicate (Int.toNat 0) ' '⟩ : String) = "" then none
      else some (if ml = 0 then 120 else ml)) = none
    rw [if_pos he]
  cases hs : strf cfg v "" 0 with
  | none => simp
  | some s =>
      simp only [Option.getD_some]
      exact strfFuel_no_nl cfg hmax (sizeVal v) v "" 0 s hs

/-- Claim C8, witness: the claim theorem at indent 0, maximum length 10 and
a five-entry object whose single-line rendering is far wider than 10. -/
theorem claim_C8_witness :
    mkConfig 0 10 defaultOptions = Except.ok cfg0w ∧
    '\n' ∉ ((strf cfg0w (JsVal.obj [("a", JsVal.num (JsNum.fin 1)),
      ("b", JsVal.num (JsNum.fin 2)), ("c", JsVal.num (JsNum.fin 3)),
      ("d", JsVal.num (JsNum.fin 4)), ("e", JsVal.num (JsNum.fin 5))]) "" 0).getD "").data :=
  ⟨rfl, claim_C8 10 defaultOptions cfg0w _ rfl⟩

/-- Claim C1, counterexample: for the array [12345, 67, 89] with indent 2
and maximum line length 10, the second output line is the fill-wrapped
group with its trailing comma, 12 characters wide — wider than the limit —
although it is not a single atomic token: it consists of the renderings of
two elements, each of which (12345 and 67) fits well within the limit. -/
theorem claim_C1_counterexample :
    stringify cfg210 (JsVal.arr [JsVal.num (JsNum.fin 12345), JsVal.num (JsNum.fin 67),
      JsVal.num (JsNum.fin 89)]) = "[\n  12345, 67,\n  89\n]\n" ∧
    (linesOf (stringify cfg210 (JsVal.arr [JsVal.num (JsNum.fin 12345),
      JsVal.num (JsNum.fin 67), JsVal.num (JsNum.fin 89)]))).get? 1 =
      some "  12345, 67," ∧
    10 < ("  12345, 67," : String).length ∧
    strf cfg210 (JsVal.num (JsNum.fin 12345)) "  " 2 = some "12345" ∧
    strf cfg210 (JsVal.num (JsNum.fin 67)) "  " 2 = some "67" := by decide

/-- Claim C1, amended: the maximum line length is a soft target that
multi-token lines may exceed (a fill-wrapped group can overshoot by the
joining punctuation, and no general bound holds); the documented concrete
example behaves exactly as specified: array [1,2,3,4,5,6,7] with indent 2
and maximum length 10 renders with the groups 1, 2, 3 and 4, 5, 6 and 7 on
separate lines, and every line of that output is at most 10 characters
including indentation. -/
theorem claim_C1_amended :
    stringify cfg210 (JsVal.arr [JsVal.num (JsNum.fin 1), JsVal.num (JsNum.fin 2),
      JsVal.num (JsNum.fin 3), JsVal.num (JsNum.fin 4), JsVal.num (JsNum.fin 5),
      JsVal.num (JsNum.fin 6), JsVal.num (JsNum.fin 7)]) =
      "[\n  1, 2, 3,\n  4, 5, 6,\n  7\n]\n" ∧
    ∀ line ∈ linesOf (stringify cfg210 (JsVal.arr [JsVal.num (JsNum.fin 1),
      JsVal.num (JsNum.fin 2), JsVal.num (JsNum.fin 3), JsVal.num (JsNum.fin 4),
      JsVal.num (JsNum.fin 5), JsVal.num (JsNum.fin 6), JsVal.num (JsNum.fin 7)])),
      line.length ≤ 10 := by decide

/-- Claim C2, counterexample: for the object with the single entry a: 1 at
maximum line length 9, the code renders the single-line candidate (of
length 10, so the claimed condition leftMargin + candidateLength + 2 <=
maxLineLength fails: 0 + 10 + 2 > 9), instead of expanding as the claimed
biconditional requires. -/
theorem claim_C2_counterexample :
    stringify cfg29 (JsVal.obj [("a", JsVal.num (JsNum.fin 1))]) =
      singleLineForm cfg29 "\x7b" "\x7d"
        (containerItems cfg29 (JsVal.obj [("a", JsVal.num (JsNum.fin 1))]) "") ++ "\n" ∧
    ¬ ((0 : Int) + ((singleLineForm cfg29 "\x7b" "\x7d"
        (containerItems cfg29 (JsVal.obj [("a", JsVal.num (JsNum.fin 1))]) "")).length : Int)
        + 2 ≤ 9) := by decide

/-- Claim C2, amended: with key sorting on and a finite maximum length m, a
non-empty container is rendered as the single-line candidate (padded
delimiters around the items joined by comma and space) exactly when
joinedItemsLength + leftMargin + 2 < m, strictly, where joinedItemsLength
counts the items joined by comma and space without the delimiters or their
padding; otherwise it is fully expanded. -/
theorem claim_C2_amended (cfg : Config) (m : Int) (v : JsVal) (l : String) (r : Nat)
    (hs : cfg.sortKeys = true) (hm : cfg.maxLength = some m) (hv : isObjType v = true)
    (hne : containerItems cfg v l ≠ []) :
    (strf cfg v l r =
        some (singleLineForm cfg (delimOpen v) (delimClose v) (containerItems cfg v l))) ↔
      ((joinSep ", " (containerItems cfg v l)).length : Int) + l.length + 2 < m := by
  cases v with
  | arr xs =>
      rw [strf_arr cfg xs l r hs, Option.some_inj]
      rw [show delimOpen (JsVal.arr xs) = "[" from rfl,
        show delimClose (JsVal.arr xs) = "]" from rfl]
      exact assemble_single_iff cfg m hm "[" "]" l (l ++ cfg.indent)
        (containerItems cfg (JsVal.arr xs) l) hne '[' ']' rfl
        (pad_open_bracket cfg.spacing) (pad_close_bracket cfg.spacing) (by decide)
        (containerItems_head_ok cfg (JsVal.arr xs) l)
  | obj kvs =>
      rw [strf_obj cfg kvs l r hs, Option.some_inj]
      rw [show delimOpen (JsVal.obj kvs) = "\x7b" from rfl,
        show delimClose (JsVal.obj kvs) = "\x7d" from rfl]
      exact assemble_single_iff cfg m hm "\x7b" "\x7d" l (l ++ cfg.indent)
        (containerItems cfg (JsVal.obj kvs) l) hne '\x7b' '\x7d' rfl
        (pad_open_brace cfg.spacing) (pad_close_brace cfg.spacing) (by decide)
        (containerItems_head_ok cfg (JsVal.obj kvs) l)
  | null => simp [isObjType] at hv
  | undef => simp [isObjType] at hv
  | func => simp [isObjType] at hv
  | bool b => simp [isObjType] at hv
  | num nv => simp [isObjType] at hv
  | str sv => simp [isObjType] at hv

/-- Claim C2, witness: the amended biconditional instantiated at the object
with the single entry a: 1 under maximum line length 9. -/
theorem claim_C2_witness :
    cfg29.sortKeys = true ∧ cfg29.maxLength = some 9 ∧
    isObjType (JsVal.obj [("a", JsVal.num (JsNum.fin 1))]) = true ∧
    containerItems cfg29 (JsVal.obj [("a", JsVal.num (JsNum.fin 1))]) "" ≠ [] ∧
    strf cfg29 (JsVal.obj [("a", JsVal.num (JsNum.fin 1))]) "" 0 =
      some (singleLineForm cfg29 (delimOpen (JsVal.obj [("a", JsVal.num (JsNum.fin 1))]))
        (delimClose (JsVal.obj [("a", JsVal.num (JsNum.fin 1))]))
        (containerItems cfg29 (JsVal.obj [("a", JsVal.num (JsNum.fin 1))]) "")) :=
  ⟨rfl, rfl, rfl, by decide,
   (claim_C2_amended cfg29 9 (JsVal.obj [("a", JsVal.num (JsNum.fin 1))]) "" 0 rfl rfl rfl
      (by decide)).mpr (by decide)⟩

/-- Claim C3, counterexample: with the priority list containing name, the
key name is mapped and the empty-string key is not, yet the comparator
places the unmapped empty key first (compare returns a positive number for
the mapped key against it), contradicting the claim that the mapped key
always sorts first. -/
theorem claim_C3_counterexample :
    (idxEntry ["name"] (jsToLower "name")).isSome = true ∧
    idxEntry ["name"] (jsToLower "") = none ∧
    0 < PriorityKeySorter.compare ["name"] "name" "" := by decide

/-- Claim C3, amended: for priority lists of at most 100 entries, two keys
found in the priority mapping are ordered by their list indices; a mapped
key sorts before an unmapped key provided the unmapped key is non-empty and
its first character is greater than the space character (as every
alphanumeric key is); two unmapped keys compare lexicographically
(code-unit order); and for the object with keys z, name, version, a under
priority keys name, version the emitted key order is name, version, a, z. -/
theorem claim_C3_amended :
    (∀ (fk : List String) (a b : String) (i j : Nat) (pa pb : String),
        fk.length ≤ 100 →
        idxEntry fk (jsToLower a) = some (i, pa) →
        idxEntry fk (jsToLower b) = some (j, pb) →
        ((i < j → PriorityKeySorter.compare fk a b < 0) ∧
         (i = j → PriorityKeySorter.compare fk a b = 0) ∧
         (j < i → 0 < PriorityKeySorter.compare fk a b))) ∧
    (∀ (fk : List String) (a b : String) (i : Nat) (pa : String) (c : Char),
        fk.length ≤ 100 →
        idxEntry fk (jsToLower a) = some (i, pa) →
        idxEntry fk (jsToLower b) = none →
        b.data.head? = some c → ' ' < c →
        (PriorityKeySorter.compare fk a b < 0 ∧ 0 < PriorityKeySorter.compare fk b a)) ∧
    (∀ (fk : List String) (a b : String),
        idxEntry fk (jsToLower a) = none → idxEntry fk (jsToLower b) = none →
        PriorityKeySorter.compare fk a b = localeCompare a b) ∧
    stringify cfg230nv (JsVal.obj [("z", JsVal.num (JsNum.fin 1)), ("name", JsVal.str "x"),
      ("version", JsVal.str "1.0"), ("a", JsVal.num (JsNum.fin 2))]) =
      "\x7b\n  \"name\": \"x\",\n  \"version\": \"1.0\",\n  \"a\": 2,\n  \"z\": 1\n\x7d\n" := by
  refine ⟨?_, ?_, ?_, by decide⟩
  · intro fk a b i j pa pb hlen ha hb
    obtain ⟨hpa, hi, hga⟩ := idxEntry_spec fk (jsToLower a) i pa ha
    obtain ⟨hpb, hj2, hgb⟩ := idxEntry_spec fk (jsToLower b) j pb hb
    have hcompare : PriorityKeySorter.compare fk a b =
        localeCompare (pad3 i ++ pa) (pad3 j ++ pb) := by
      unfold PriorityKeySorter.compare rankOf
      rw [ha, hb]
      rfl
    refine ⟨?_, ?_, ?_⟩
    · intro hij
      rw [hcompare, localeCompare_neg_iff, data_append, data_append]
      exact lexLt_append_of_eq_len _ _ _ _
        (by rw [pad3_len ⟨i, by omega⟩, pad3_len ⟨j, by omega⟩])
        (pad3_mono ⟨i, by omega⟩ ⟨j, by omega⟩ hij)
    · intro hij
      subst hij
      have hpp : pa = pb := by
        rw [hga] at hgb
        exact (Option.some.injEq _ _).mp hgb
      subst hpp
      rw [hcompare]
      exact localeCompare_eq_zero _ _ (lexLt_irrefl _) (lexLt_irrefl _)
    · intro hji
      rw [hcompare, localeCompare_pos_iff, data_append, data_append]
      exact lexLt_append_of_eq_len _ _ _ _
        (by rw [pad3_len ⟨j, by omega⟩, pad3_len ⟨i, by omega⟩])
        (pad3_mono ⟨j, by omega⟩ ⟨i, by omega⟩ hji)
  · intro fk a b i pa c hlen ha hb hhead hc
    obtain ⟨hpa, hi, hga⟩ := idxEntry_spec fk (jsToLower a) i pa ha
    have hak : PriorityKeySorter.compare fk a b = localeCompare (pad3 i ++ pa) b := by
      unfold PriorityKeySorter.compare rankOf
      rw [ha, hb]
      rfl
    have hba : PriorityKeySorter.compare fk b a = localeCompare b (pad3 i ++ pa) := by
      unfold PriorityKeySorter.compare rankOf
      rw [ha, hb]
      rfl
    have hlex : lexLt (pad3 i ++ pa).data b.data = true := by
      rw [data_append]
      rw [cons_of_head? (pad3 i).data ' ' (pad3_head ⟨i, by omega⟩)]
      rw [cons_of_head? b.data c hhead]
      rw [List.cons_append]
      exact lexLt_head ' ' c _ _ hc
    refine ⟨?_, ?_⟩
    · rw [hak, localeCompare_neg_iff]
      exact hlex
    · rw [hba, localeCompare_pos_iff]
      exact hlex
  · intro fk a b ha hb
    unfold PriorityKeySorter.compare rankOf
    rw [ha, hb]
    rfl

/-- Claim C3, witness: the amended mapped-before-unmapped clause at the
priority list name, version: the mapped key version sorts before the
unmapped key alpha. -/
theorem claim_C3_witness :
    PriorityKeySorter.compare ["name", "version"] "version" "alpha" < 0 :=
  (claim_C3_amended.2.1 ["name", "version"] "version" "alpha" 1 "version" 'a'
    (by decide) (by decide) (by decide) (by decide) (by decide)).1

/-- Claim C4, counterexample: with the priority list entry supplied as Z
(uppercase), the key z — differing from the configured entry only in letter
case — is not matched by the lookup (which lowercases the key but not the
stored entry), and therefore does not sort as a priority key: it sorts
after the unmapped key a instead of before it. -/
theorem claim_C4_counterexample :
    "Z" ∈ (["Z"] : List String) ∧
    jsToLower "z" = jsToLower "Z" ∧
    idxEntry ["Z"] (jsToLower "z") = none ∧
    0 < PriorityKeySorter.compare ["Z"] "z" "a" := by decide

/-- Claim C4, amended: matching lowercases the object key only, while the
configured entries are stored as supplied, so an entry containing an
uppercase letter never matches; when a configured entry is itself
lowercase, any key equal to it up to case is matched, and two keys with the
same lowercase form compare identically against every third key once
matched; the original key casing is always preserved in output, as in the
concrete example where the key NAME is matched against the priority entry
name, sorted first, and emitted as NAME. -/
theorem claim_C4_amended :
    (∀ (fk : List String) (a p : String), p ∈ fk → jsToLower p = p → jsToLower a = p →
        (idxEntry fk (jsToLower a)).isSome = true) ∧
    (∀ (fk : List String) (a a2 b : String), jsToLower a = jsToLower a2 →
        (idxEntry fk (jsToLower a)).isSome = true →
        PriorityKeySorter.compare fk a b = PriorityKeySorter.compare fk a2 b) ∧
    stringify cfgNameKey (JsVal.obj [("NAME", JsVal.num (JsNum.fin 1)),
      ("a", JsVal.num (JsNum.fin 2))]) = "\x7b \"NAME\": 1, \"a\": 2 \x7d\n" := by
  refine ⟨?_, ?_, by decide⟩
  · intro fk a p hp hlow ha
    rw [ha]
    exact idxEntry_isSome_of_mem fk p hp
  · intro fk a a2 b hlow hsome
    unfold PriorityKeySorter.compare
    rw [hlow]
    cases hr : rankOf fk (jsToLower a2) with
    | none =>
        exfalso
        unfold rankOf at hr
        rw [hlow] at hsome
        cases he : idxEntry fk (jsToLower a2) with
        | none =>
            rw [he] at hsome
            simp at hsome
        | some e =>
            rw [he] at hr
            simp at hr
    | some rk => rfl

/-- Claim C4, witness: the amended matching clause at the lowercase entry
name and the differently-cased key NAME. -/
theorem claim_C4_witness :
    (idxEntry ["name"] (jsToLower "NAME")).isSome = true :=
  claim_C4_amended.1 ["name"] "NAME" "name" (by decide) (by decide) (by decide)

end HumanJson
